import Mathlib

/-!
Verification of the defchrtool core (PCG character-graphics editor).

The development shallowly embeds the TypeScript sources:
* `src/core/PCGData` (the 6144-byte bitplane character store),
* `src/core/EditAreaCalculator` and `src/core/EditBufferTransform`
  (region resolution and geometric transforms),
* `src/io/BinFormat` (raw binary codec),
* `src/io/BasFormat` (tokenized pseudo-BASIC program codec, ASCII and binary),
* `src/core/ColorReducer` (the 8-color quantizer).

Machine bytes are modelled as `Nat` values; a store is a function
`Nat → Nat` from byte index to byte value (the `Uint8Array` invariant
`∀ i, d i < 256` is carried as an explicit hypothesis where a claim
needs it).  Strings are modelled as lists of UTF-16 code units
(`List Nat`), matching JavaScript `charCodeAt` / `fromCharCode`.
-/

namespace Defchr

/-- A PCG store: byte index (0..6143) → byte value.  Models the
`Uint8Array` backing `PCGData.data`. -/
def Store : Type := Nat → Nat

/-- Byte `j` (0..23) of character `code`; models
`PCGData.getCharacter(code)[j]`, including the `code & 0xFF` mask. -/
def charByte (d : Store) (code j : Nat) : Nat :=
  d ((code % 256) * 24 + j)

/-- `PCGData.getPixel(charCode, x, y)`: reads one bit from each of the
B, R, G planes and combines them as `b | (r << 1) | (g << 2)`. -/
def getPixel (d : Store) (charCode x y : Nat) : Nat :=
  (if d ((charCode % 256) * 24 + y % 8) &&& (0x80 >>> (x % 8)) ≠ 0 then 1 else 0)
    ||| ((if d ((charCode % 256) * 24 + 8 + y % 8) &&& (0x80 >>> (x % 8)) ≠ 0 then 1 else 0) <<< 1)
    ||| ((if d ((charCode % 256) * 24 + 16 + y % 8) &&& (0x80 >>> (x % 8)) ≠ 0 then 1 else 0) <<< 2)

/-- Point update of a store (one byte of the `Uint8Array`). -/
def updByte (d : Store) (i v : Nat) : Store :=
  fun j => if j = i then v else d j

/-- `data[i] |= mask` / `data[i] &= ~mask` on a byte, depending on
whether the color bit is set.  `~mask` truncated to a `Uint8Array`
entry equals `0xFF ^^^ mask`. -/
def applyMaskBit (b : Bool) (v mask : Nat) : Nat :=
  if b then v ||| mask else v &&& (0xFF ^^^ mask)

/-- `PCGData.setPixel(charCode, x, y, color)`: decomposes `color` into
B/R/G bits and sets or clears the corresponding bit of each plane row
byte in sequence (B plane, then R, then G). -/
def setPixel (d : Store) (charCode x y color : Nat) : Store :=
  let offset := (charCode % 256) * 24
  let mask := 0x80 >>> (x % 8)
  let row := y % 8
  let d1 := updByte d (offset + row) (applyMaskBit (color &&& 1 ≠ 0) (d (offset + row)) mask)
  let d2 := updByte d1 (offset + 8 + row)
    (applyMaskBit (color &&& 2 ≠ 0) (d1 (offset + 8 + row)) mask)
  updByte d2 (offset + 16 + row)
    (applyMaskBit (color &&& 4 ≠ 0) (d2 (offset + 16 + row)) mask)

/-- `PCGData.setCharacter(code, cd)` where `cd : Nat → Nat` gives the
24 payload bytes: writes bytes `code*24 .. code*24+23` (after the
`code & 0xFF` mask). -/
def writeChar (d : Store) (code : Nat) (cd : Nat → Nat) : Store :=
  fun j =>
    if (code % 256) * 24 ≤ j ∧ j < (code % 256) * 24 + 24 then
      cd (j - (code % 256) * 24)
    else d j

/-- The all-zero store produced by `new PCGData()`. -/
def zeroStore : Store := fun _ => 0

/-! ### Bit-level helper lemmas -/

theorem and_two_pow_ne_zero_iff (v b : Nat) :
    v &&& 2 ^ b ≠ 0 ↔ v.testBit b = true := by
  rw [Nat.and_two_pow]
  cases h : v.testBit b <;> simp [h, Nat.pow_eq_zero]

theorem mask_eq_pow (x : Nat) (hx : x < 8) : 0x80 >>> x = 2 ^ (7 - x) := by
  interval_cases x <;> decide

/-- Setting a bit via `|||` leaves other bit positions alone. -/
theorem or_pow_and_pow_ne (v : Nat) (a b : Nat) (hab : a ≠ b) :
    ((v ||| 2 ^ a) &&& 2 ^ b ≠ 0) ↔ (v &&& 2 ^ b ≠ 0) := by
  rw [and_two_pow_ne_zero_iff, and_two_pow_ne_zero_iff]
  simp [Nat.testBit_or, Nat.testBit_two_pow, hab]

/-- Clearing a bit via `&&& (0xFF ^^^ 2^a)` leaves other low bit
positions alone. -/
theorem andc_pow_and_pow_ne (v : Nat) (a b : Nat) (ha : a < 8) (hb : b < 8) (hab : a ≠ b) :
    ((v &&& (0xFF ^^^ 2 ^ a)) &&& 2 ^ b ≠ 0) ↔ (v &&& 2 ^ b ≠ 0) := by
  rw [and_two_pow_ne_zero_iff, and_two_pow_ne_zero_iff]
  have hbit : (0xFF ^^^ 2 ^ a).testBit b = true := by
    interval_cases a <;> interval_cases b <;> revert hab <;> decide
  simp [Nat.testBit_and, hbit]

/-- Clearing a bit via `&&& (0xFF ^^^ 2^a)` clears bit `a`. -/
theorem andc_pow_and_pow_self (v : Nat) (a : Nat) (ha : a < 8) :
    (v &&& (0xFF ^^^ 2 ^ a)) &&& 2 ^ a = 0 := by
  have hbit : (0xFF ^^^ 2 ^ a).testBit a = false := by
    interval_cases a <;> decide
  rw [Nat.and_assoc, Nat.and_comm (0xFF ^^^ 2 ^ a), ← Nat.and_assoc, Nat.and_two_pow]
  rcases h : v.testBit a with _ | _
  · simp
  · simp only [Bool.toNat_true, one_mul]
    rw [Nat.and_comm, Nat.and_two_pow, hbit]
    simp

theorem or_pow_and_pow_self (v : Nat) (a : Nat) :
    (v ||| 2 ^ a) &&& 2 ^ a ≠ 0 := by
  rw [and_two_pow_ne_zero_iff]
  simp [Nat.testBit_or, Nat.testBit_two_pow]

/-- The written bit reads back as the written boolean. -/
theorem applyMaskBit_and_self (b : Bool) (v a : Nat) (ha : a < 8) :
    ((applyMaskBit b v (2 ^ a)) &&& 2 ^ a ≠ 0) ↔ b = true := by
  cases b with
  | false => simp [applyMaskBit, andc_pow_and_pow_self v a ha]
  | true => simp [applyMaskBit, or_pow_and_pow_self v a]

/-- Writing one bit does not disturb another bit position. -/
theorem applyMaskBit_and_ne (b : Bool) (v a a' : Nat) (ha : a < 8) (ha' : a' < 8)
    (hne : a ≠ a') :
    ((applyMaskBit b v (2 ^ a)) &&& 2 ^ a' ≠ 0) ↔ (v &&& 2 ^ a' ≠ 0) := by
  cases b with
  | false => simp [applyMaskBit, andc_pow_and_pow_ne v a a' ha ha' hne]
  | true => simp [applyMaskBit, or_pow_and_pow_ne v a a' hne]

theorem and_one_ne_iff (col : Nat) : (col &&& 1 ≠ 0) ↔ col % 2 = 1 := by
  rw [Nat.and_one_is_mod]; omega

theorem and_two_ne_iff (col : Nat) : (col &&& 2 ≠ 0) ↔ col / 2 % 2 = 1 := by
  rw [show (2 : Nat) = 2 ^ 1 by norm_num, and_two_pow_ne_zero_iff, Nat.testBit_to_div_mod]
  simp

theorem and_four_ne_iff (col : Nat) : (col &&& 4 ≠ 0) ↔ col / 4 % 2 = 1 := by
  rw [show (4 : Nat) = 2 ^ 2 by norm_num, and_two_pow_ne_zero_iff, Nat.testBit_to_div_mod]
  simp

theorem and_seven_eq_mod (col : Nat) : col &&& 7 = col % 8 := by
  have := Nat.and_pow_two_sub_one_eq_mod col 3
  simpa using this

/-- Three one-bit values placed at bit positions 0, 1, 2. -/
theorem or3_eq_add (b r g : Nat) (hb : b ≤ 1) (hr : r ≤ 1) (hg : g ≤ 1) :
    b ||| (r <<< 1) ||| (g <<< 2) = b + 2 * r + 4 * g := by
  interval_cases b <;> interval_cases r <;> interval_cases g <;> decide

/-- Recombining the three plane bits of `col` gives `col &&& 7`. -/
theorem color_bits_recombine (col : Nat) :
    ((if col &&& 1 ≠ 0 then 1 else 0)
      ||| ((if col &&& 2 ≠ 0 then 1 else 0) <<< 1)
      ||| ((if col &&& 4 ≠ 0 then 1 else 0) <<< 2)) = col &&& 7 := by
  rw [and_seven_eq_mod,
    or3_eq_add _ _ _ (by split <;> omega) (by split <;> omega) (by split <;> omega)]
  have e1 : (if col &&& 1 ≠ 0 then (1 : Nat) else 0) = col % 2 := by
    rcases Decidable.em (col &&& 1 ≠ 0) with h | h
    · rw [if_pos h]; rw [and_one_ne_iff] at h; omega
    · rw [if_neg h]; rw [and_one_ne_iff] at h; omega
  have e2 : (if col &&& 2 ≠ 0 then (1 : Nat) else 0) = col / 2 % 2 := by
    rcases Decidable.em (col &&& 2 ≠ 0) with h | h
    · rw [if_pos h]; rw [and_two_ne_iff] at h; omega
    · rw [if_neg h]; rw [and_two_ne_iff] at h; omega
  have e4 : (if col &&& 4 ≠ 0 then (1 : Nat) else 0) = col / 4 % 2 := by
    rcases Decidable.em (col &&& 4 ≠ 0) with h | h
    · rw [if_pos h]; rw [and_four_ne_iff] at h; omega
    · rw [if_neg h]; rw [and_four_ne_iff] at h; omega
  rw [e1, e2, e4]
  omega

/-- `getPixel` always returns a color in `[0,7]`. -/
theorem getPixel_lt_8 (d : Store) (c x y : Nat) : getPixel d c x y < 8 := by
  unfold getPixel
  split <;> split <;> split <;> decide

theorem and_seven_getPixel (d : Store) (c x y : Nat) :
    getPixel d c x y &&& 7 = getPixel d c x y := by
  rw [and_seven_eq_mod, Nat.mod_eq_of_lt (getPixel_lt_8 d c x y)]

/-! ### Pixel-level characterization of `setPixel` -/

/-- The normalized pixel address read/written by `getPixel`/`setPixel`. -/
def pixKey (charCode x y : Nat) : Nat × Nat × Nat :=
  (charCode % 256, x % 8, y % 8)

/-- `getPixel` only depends on the normalized pixel address. -/
theorem getPixel_congr (d : Store) {c x y c' x' y' : Nat}
    (h : pixKey c x y = pixKey c' x' y') :
    getPixel d c x y = getPixel d c' x' y' := by
  unfold pixKey at h
  obtain ⟨h1, h2, h3⟩ : c % 256 = c' % 256 ∧ x % 8 = x' % 8 ∧ y % 8 = y' % 8 := by
    simpa using h
  unfold getPixel
  rw [h1, h2, h3]

/-- Flat description of the bytes written by `setPixel`. -/
theorem setPixel_apply (d : Store) (c x y col : Nat) (j : Nat) :
    setPixel d c x y col j =
      if j = (c % 256) * 24 + y % 8 then
        applyMaskBit (col &&& 1 ≠ 0) (d j) (0x80 >>> (x % 8))
      else if j = (c % 256) * 24 + 8 + y % 8 then
        applyMaskBit (col &&& 2 ≠ 0) (d j) (0x80 >>> (x % 8))
      else if j = (c % 256) * 24 + 16 + y % 8 then
        applyMaskBit (col &&& 4 ≠ 0) (d j) (0x80 >>> (x % 8))
      else d j := by
  simp only [setPixel, updByte]
  by_cases hG : j = (c % 256) * 24 + 16 + y % 8 <;>
    by_cases hR : j = (c % 256) * 24 + 8 + y % 8 <;>
      by_cases hB : j = (c % 256) * 24 + y % 8 <;>
        simp_all

/-- Reading the pixel just written returns the written color (masked to
its low three bits, which is the identity for colors in `[0,7]`). -/
theorem applyMaskBit_decide_and_self (P : Prop) [Decidable P] (v a : Nat) (ha : a < 8) :
    ((applyMaskBit (decide P) v (2 ^ a)) &&& 2 ^ a ≠ 0) ↔ P := by
  rw [applyMaskBit_and_self _ _ _ ha]
  exact decide_eq_true_iff

theorem applyMaskBit_decide_and_ne (P : Prop) [Decidable P] (v a a' : Nat)
    (ha : a < 8) (ha' : a' < 8) (hne : a ≠ a') :
    ((applyMaskBit (decide P) v (2 ^ a)) &&& 2 ^ a' ≠ 0) ↔ (v &&& 2 ^ a' ≠ 0) :=
  applyMaskBit_and_ne _ v a a' ha ha' hne

theorem getPixel_setPixel_same (d : Store) (c x y col : Nat) :
    getPixel (setPixel d c x y col) c x y = col &&& 7 := by
  have h8 : x % 8 < 8 := Nat.mod_lt _ (by norm_num)
  have hm : (0x80 : Nat) >>> (x % 8) = 2 ^ (7 - x % 8) := mask_eq_pow _ h8
  have h7 : 7 - x % 8 < 8 := by omega
  have hB : setPixel d c x y col ((c % 256) * 24 + y % 8)
      = applyMaskBit (col &&& 1 ≠ 0) (d ((c % 256) * 24 + y % 8)) (0x80 >>> (x % 8)) := by
    rw [setPixel_apply, if_pos rfl]
  have hR : setPixel d c x y col ((c % 256) * 24 + 8 + y % 8)
      = applyMaskBit (col &&& 2 ≠ 0) (d ((c % 256) * 24 + 8 + y % 8)) (0x80 >>> (x % 8)) := by
    rw [setPixel_apply, if_neg (by omega), if_pos rfl]
  have hG : setPixel d c x y col ((c % 256) * 24 + 16 + y % 8)
      = applyMaskBit (col &&& 4 ≠ 0) (d ((c % 256) * 24 + 16 + y % 8)) (0x80 >>> (x % 8)) := by
    rw [setPixel_apply, if_neg (by omega), if_neg (by omega), if_pos rfl]
  unfold getPixel
  rw [hB, hR, hG, hm]
  rw [if_congr (applyMaskBit_decide_and_self _ _ _ h7) rfl rfl,
    if_congr (applyMaskBit_decide_and_self _ _ _ h7) rfl rfl,
    if_congr (applyMaskBit_decide_and_self _ _ _ h7) rfl rfl]
  exact color_bits_recombine col

/-- Writing one pixel does not affect any other pixel address. -/
theorem getPixel_setPixel_ne (d : Store) (c x y col c' x' y' : Nat)
    (h : pixKey c' x' y' ≠ pixKey c x y) :
    getPixel (setPixel d c x y col) c' x' y' = getPixel d c' x' y' := by
  by_cases hqc : c' % 256 = c % 256
  · by_cases hqy : y' % 8 = y % 8
    · have hqx : x' % 8 ≠ x % 8 := by
        intro hx
        exact h (by simp [pixKey, hqc, hqy, hx])
      have h8 : x % 8 < 8 := Nat.mod_lt _ (by norm_num)
      have h8' : x' % 8 < 8 := Nat.mod_lt _ (by norm_num)
      have hm : (0x80 : Nat) >>> (x % 8) = 2 ^ (7 - x % 8) := mask_eq_pow _ h8
      have hm' : (0x80 : Nat) >>> (x' % 8) = 2 ^ (7 - x' % 8) := mask_eq_pow _ h8'
      have h7 : 7 - x % 8 < 8 := by omega
      have h7' : 7 - x' % 8 < 8 := by omega
      have hne7 : 7 - x % 8 ≠ 7 - x' % 8 := by omega
      have e1 : setPixel d c x y col ((c' % 256) * 24 + y' % 8)
          = applyMaskBit (col &&& 1 ≠ 0) (d ((c' % 256) * 24 + y' % 8)) (0x80 >>> (x % 8)) := by
        rw [setPixel_apply, if_pos (by rw [hqc, hqy])]
      have e2 : setPixel d c x y col ((c' % 256) * 24 + 8 + y' % 8)
          = applyMaskBit (col &&& 2 ≠ 0) (d ((c' % 256) * 24 + 8 + y' % 8)) (0x80 >>> (x % 8)) := by
        rw [setPixel_apply, if_neg (by omega), if_pos (by rw [hqc, hqy])]
      have e3 : setPixel d c x y col ((c' % 256) * 24 + 16 + y' % 8)
          = applyMaskBit (col &&& 4 ≠ 0) (d ((c' % 256) * 24 + 16 + y' % 8)) (0x80 >>> (x % 8)) := by
        rw [setPixel_apply, if_neg (by omega), if_neg (by omega), if_pos (by rw [hqc, hqy])]
      unfold getPixel
      rw [e1, e2, e3, hm, hm']
      rw [if_congr (applyMaskBit_decide_and_ne _ _ _ _ h7 h7' hne7) rfl rfl,
        if_congr (applyMaskBit_decide_and_ne _ _ _ _ h7 h7' hne7) rfl rfl,
        if_congr (applyMaskBit_decide_and_ne _ _ _ _ h7 h7' hne7) rfl rfl]
    · have e1 : setPixel d c x y col ((c' % 256) * 24 + y' % 8)
          = d ((c' % 256) * 24 + y' % 8) := by
        rw [setPixel_apply, if_neg (by omega), if_neg (by omega), if_neg (by omega)]
      have e2 : setPixel d c x y col ((c' % 256) * 24 + 8 + y' % 8)
          = d ((c' % 256) * 24 + 8 + y' % 8) := by
        rw [setPixel_apply, if_neg (by omega), if_neg (by omega), if_neg (by omega)]
      have e3 : setPixel d c x y col ((c' % 256) * 24 + 16 + y' % 8)
          = d ((c' % 256) * 24 + 16 + y' % 8) := by
        rw [setPixel_apply, if_neg (by omega), if_neg (by omega), if_neg (by omega)]
      unfold getPixel
      rw [e1, e2, e3]
  · have e1 : setPixel d c x y col ((c' % 256) * 24 + y' % 8)
        = d ((c' % 256) * 24 + y' % 8) := by
      rw [setPixel_apply, if_neg (by omega), if_neg (by omega), if_neg (by omega)]
    have e2 : setPixel d c x y col ((c' % 256) * 24 + 8 + y' % 8)
        = d ((c' % 256) * 24 + 8 + y' % 8) := by
      rw [setPixel_apply, if_neg (by omega), if_neg (by omega), if_neg (by omega)]
    have e3 : setPixel d c x y col ((c' % 256) * 24 + 16 + y' % 8)
        = d ((c' % 256) * 24 + 16 + y' % 8) := by
      rw [setPixel_apply, if_neg (by omega), if_neg (by omega), if_neg (by omega)]
    unfold getPixel
    rw [e1, e2, e3]

/-- Full pixel-level characterization of `setPixel`. -/
theorem getPixel_setPixel (d : Store) (c x y col c' x' y' : Nat) :
    getPixel (setPixel d c x y col) c' x' y' =
      if pixKey c' x' y' = pixKey c x y then col &&& 7 else getPixel d c' x' y' := by
  by_cases h : pixKey c' x' y' = pixKey c x y
  · rw [if_pos h, getPixel_congr _ h, getPixel_setPixel_same]
  · rw [if_neg h, getPixel_setPixel_ne _ _ _ _ _ _ _ _ h]

/-- C3: pixel write localization.  After `setPixel(code,x,y,c)` (with
`code` in `[0,255]`, `x,y` in `[0,7]`, `c` in `[0,7]`),
`getPixel(code,x,y)` returns `c` and every other pixel of every
character in the store is unchanged. -/
theorem setPixel_localization (d : Store) (code x y c : Nat)
    (hcode : code < 256) (hx : x < 8) (hy : y < 8) (hc : c < 8) :
    getPixel (setPixel d code x y c) code x y = c ∧
    ∀ code' x' y', code' < 256 → x' < 8 → y' < 8 → (code', x', y') ≠ (code, x, y) →
      getPixel (setPixel d code x y c) code' x' y' = getPixel d code' x' y' := by
  constructor
  · rw [getPixel_setPixel_same, and_seven_eq_mod, Nat.mod_eq_of_lt (by omega)]
  · intro code' x' y' h1 h2 h3 hne
    apply getPixel_setPixel_ne
    unfold pixKey
    rw [Nat.mod_eq_of_lt h1, Nat.mod_eq_of_lt h2, Nat.mod_eq_of_lt h3,
      Nat.mod_eq_of_lt hcode, Nat.mod_eq_of_lt hx, Nat.mod_eq_of_lt hy]
    simpa using hne

/-- Witness for C3: Scenario A of the spec — on a zero store,
`setPixel(0x41,0,0,7)` yields `getPixel(0x41,0,0) = 7` and all other
pixels stay `0`. -/
theorem setPixel_localization_witness :
    (0x41 < 256 ∧ 0 < 8 ∧ 0 < 8 ∧ 7 < 8) ∧
    (getPixel (setPixel zeroStore 0x41 0 0 7) 0x41 0 0 = 7 ∧
      ∀ code' x' y', code' < 256 → x' < 8 → y' < 8 → (code', x', y') ≠ (0x41, 0, 0) →
        getPixel (setPixel zeroStore 0x41 0 0 7) code' x' y' = getPixel zeroStore code' x' y') :=
  ⟨by decide,
    setPixel_localization zeroStore 0x41 0 0 7 (by decide) (by decide) (by decide) (by decide)⟩

/-! ### List chunk-access helpers -/

theorem getD_map_range (g : Nat → Nat) (n j : Nat) (hj : j < n) :
    ((List.range n).map g).getD j 0 = g j := by
  simp [List.getD_eq_getElem?_getD, List.getElem?_map, List.getElem?_range hj]

/-- Length of a `flatMap` over `range n` with constant chunk width. -/
theorem length_flatMap_const (f : Nat → List Nat) (w n : Nat)
    (hw : ∀ i, i < n → (f i).length = w) :
    ((List.range n).flatMap f).length = n * w := by
  induction n with
  | zero => simp
  | succ m ih =>
    rw [List.range_succ, List.flatMap_append, List.length_append,
      ih (fun i hi => hw i (by omega))]
    simp [hw m (by omega), Nat.succ_mul]

/-- Indexing into a `flatMap` over `range n` with constant chunk width. -/
theorem getD_flatMap_const (f : Nat → List Nat) (w n : Nat)
    (hw : ∀ i, i < n → (f i).length = w) (i k : Nat) (hi : i < n) (hk : k < w) :
    ((List.range n).flatMap f).getD (i * w + k) 0 = (f i).getD k 0 := by
  induction n with
  | zero => omega
  | succ m ih =>
    rw [List.range_succ, List.flatMap_append]
    rcases Nat.lt_or_ge i m with him | him
    · rw [List.getD_eq_getElem?_getD, List.getElem?_append_left, ← List.getD_eq_getElem?_getD]
      · exact ih (fun i hi => hw i (by omega)) him
      · rw [length_flatMap_const f w m (fun i hi => hw i (by omega))]
        have : i + 1 ≤ m := him
        calc i * w + k < i * w + w := by omega
          _ = (i + 1) * w := by ring
          _ ≤ m * w := Nat.mul_le_mul_right w this
    · have him' : i = m := by omega
      subst him'
      rw [List.getD_eq_getElem?_getD, List.getElem?_append_right, ← List.getD_eq_getElem?_getD]
      · rw [length_flatMap_const f w i (fun i hi => hw i (by omega))]
        simp [Nat.add_sub_cancel_left]
      · rw [length_flatMap_const f w i (fun i hi => hw i (by omega))]
        omega

/-- Indexing past a `flatMap` over `range n` with constant chunk width
into the glued suffix. -/
theorem getD_flatMap_const_suffix (f : Nat → List Nat) (w n : Nat)
    (hw : ∀ i, i < n → (f i).length = w) (suffix : List Nat) (k : Nat) :
    (((List.range n).flatMap f) ++ suffix).getD (n * w + k) 0 = suffix.getD k 0 := by
  rw [List.getD_eq_getElem?_getD, List.getElem?_append_right, ← List.getD_eq_getElem?_getD] <;>
    rw [length_flatMap_const f w n hw] <;> simp [Nat.add_sub_cancel_left]

/-- Prefix chunks of an extended `flatMap` are unaffected by a suffix. -/
theorem getD_flatMap_const_append (f : Nat → List Nat) (w n : Nat)
    (hw : ∀ i, i < n → (f i).length = w) (suffix : List Nat) (i k : Nat)
    (hi : i < n) (hk : k < w) :
    (((List.range n).flatMap f) ++ suffix).getD (i * w + k) 0 = (f i).getD k 0 := by
  rw [List.getD_eq_getElem?_getD, List.getElem?_append_left, ← List.getD_eq_getElem?_getD]
  · exact getD_flatMap_const f w n hw i k hi hk
  · rw [length_flatMap_const f w n hw]
    calc i * w + k < i * w + w := by omega
      _ = (i + 1) * w := by ring
      _ ≤ n * w := Nat.mul_le_mul_right w hi

/-! ### Raw binary codec (`BinFormat`) -/

/-- `BinFormat.save(pcgData, start, end, x3mode)`.  Returns `none` for
the `count <= 0` `ValidationError`.  Non-interleaved mode concatenates
each character's native 24 plane-major bytes; `x3mode` interleaves
`[B_row, R_row, G_row]` per row. -/
def binSave (d : Store) (start e : Nat) (x3mode : Bool) : Option (List Nat) :=
  if e < start then Option.none
  else
    let count := e + 1 - start
    if x3mode then
      some ((List.range count).flatMap (fun i =>
        (List.range 8).flatMap (fun row =>
          [charByte d (start + i) row, charByte d (start + i) (8 + row),
            charByte d (start + i) (16 + row)])))
    else
      some ((List.range count).flatMap (fun i =>
        (List.range 24).map (fun j => charByte d (start + i) j)))

/-- The 24-byte payload reconstructed for the `i`-th character of a raw
load: `x3mode` inverts the row interleave, otherwise a direct slice. -/
def binLoadCharData (data : List Nat) (i : Nat) (x3mode : Bool) : Nat → Nat :=
  fun j =>
    if x3mode then data.getD (i * 24 + ((j % 8) * 3 + j / 8)) 0
    else data.getD (i * 24 + j) 0

/-- `BinFormat.load(data, pcgData, start, x3mode)`.  `none` models the
thrown `FormatError`/`ValidationError` (file too small, or
`start + charCount > 256`); both checks precede any mutation in the
source.  On success returns the mutated store and the count. -/
def binLoad (data : List Nat) (d : Store) (start : Nat) (x3mode : Bool) :
    Option (Store × Nat) :=
  let charCount := data.length / 24
  if charCount = 0 then Option.none
  else if 256 < start + charCount then Option.none
  else
    some ((List.range charCount).foldl
      (fun s i => writeChar s (start + i) (binLoadCharData data i x3mode)) d, charCount)

/-! ### Sequential `writeChar` folds -/

theorem foldl_writeChar_inside (cds : Nat → Nat → Nat) (d : Store) (start n : Nat)
    (hn : start + n ≤ 256) (c j : Nat) (hc1 : start ≤ c) (hc2 : c < start + n) (hj : j < 24) :
    ((List.range n).foldl (fun s i => writeChar s (start + i) (cds i)) d) (c * 24 + j)
      = cds (c - start) j := by
  induction n with
  | zero => omega
  | succ m ih =>
    rw [List.range_succ, List.foldl_append]
    simp only [List.foldl_cons, List.foldl_nil]
    rw [writeChar]
    have hmod : (start + m) % 256 = start + m := Nat.mod_eq_of_lt (by omega)
    rcases Nat.lt_or_ge c (start + m) with hlt | hge
    · rw [if_neg (by rw [hmod]; omega)]
      exact ih (by omega) (by omega)
    · have hcm : c = start + m := by omega
      rw [if_pos (by rw [hmod]; omega)]
      rw [hmod, hcm]
      congr 1 <;> omega

theorem foldl_writeChar_outside (cds : Nat → Nat → Nat) (d : Store) (start n : Nat)
    (hn : start + n ≤ 256) (j : Nat)
    (hj : j < start * 24 ∨ (start + n) * 24 ≤ j) :
    ((List.range n).foldl (fun s i => writeChar s (start + i) (cds i)) d) j = d j := by
  induction n with
  | zero => simp
  | succ m ih =>
    rw [List.range_succ, List.foldl_append]
    simp only [List.foldl_cons, List.foldl_nil]
    rw [writeChar]
    have hmod : (start + m) % 256 = start + m := Nat.mod_eq_of_lt (by omega)
    rw [if_neg (by rw [hmod]; omega)]
    exact ih (by omega) (by omega)

theorem x3_chunk_length (d : Store) (code : Nat) :
    ((List.range 8).flatMap (fun row =>
      [charByte d code row, charByte d code (8 + row), charByte d code (16 + row)])).length
      = 24 :=
  length_flatMap_const _ 3 8 (fun _ _ => rfl)

/-- C2: raw round-trip.  For every store `S`, range `start ≤ end ≤ 255`
and both interleave flags, `BinFormat.save` succeeds, loading its output
into any store at the same `start` succeeds with count `end-start+1`,
and every byte of every character code in the range is reproduced. -/
theorem binFormat_round_trip (d d0 : Store) (start e : Nat) (x3 : Bool)
    (hse : start ≤ e) (he : e ≤ 255) :
    ∃ bs r, binSave d start e x3 = some bs ∧ binLoad bs d0 start x3 = some r ∧
      r.2 = e + 1 - start ∧
      ∀ c j, start ≤ c → c ≤ e → j < 24 →
        charByte r.1 c j = charByte d c j := by
  have hnotlt : ¬ e < start := by omega
  set count := e + 1 - start with hcount
  have hc1 : 1 ≤ count := by omega
  have hc2 : start + count ≤ 256 := by omega
  cases x3 with
  | false =>
    set f : Nat → List Nat :=
      (fun i => (List.range 24).map (fun j => charByte d (start + i) j)) with hf
    have hw : ∀ i, i < count → (f i).length = 24 := by intro i _; simp [hf]
    set bs : List Nat := (List.range count).flatMap f with hbs
    have hlen : bs.length = count * 24 := length_flatMap_const f 24 count hw
    refine ⟨bs, ((List.range count).foldl
        (fun s i => writeChar s (start + i) (binLoadCharData bs i false)) d0, count),
      ?_, ?_, rfl, ?_⟩
    · rw [binSave, if_neg hnotlt]
      rfl
    · rw [binLoad]
      simp only [hlen, Nat.mul_div_cancel _ (by norm_num : (0:Nat) < 24)]
      rw [if_neg (by omega), if_neg (by omega)]
    · intro c j hc hce hj
      have hcm : c % 256 = c := Nat.mod_eq_of_lt (by omega)
      unfold charByte
      dsimp only
      rw [hcm]
      rw [foldl_writeChar_inside (fun i => binLoadCharData bs i false) d0 start count hc2 c j
        hc (by omega) hj]
      rw [binLoadCharData]
      simp only [Bool.false_eq_true, if_false]
      rw [getD_flatMap_const f 24 count hw (c - start) j (by omega) hj]
      rw [hf]
      rw [getD_map_range _ 24 j hj]
      unfold charByte
      congr 2
      omega
  | true =>
    set f : Nat → List Nat :=
      (fun i => (List.range 8).flatMap (fun row =>
        [charByte d (start + i) row, charByte d (start + i) (8 + row),
          charByte d (start + i) (16 + row)])) with hf
    have hw : ∀ i, i < count → (f i).length = 24 := by
      intro i _; rw [hf]; exact x3_chunk_length d (start + i)
    set bs : List Nat := (List.range count).flatMap f with hbs
    have hlen : bs.length = count * 24 := length_flatMap_const f 24 count hw
    refine ⟨bs, ((List.range count).foldl
        (fun s i => writeChar s (start + i) (binLoadCharData bs i true)) d0, count),
      ?_, ?_, rfl, ?_⟩
    · rw [binSave, if_neg hnotlt]
      rfl
    · rw [binLoad]
      simp only [hlen, Nat.mul_div_cancel _ (by norm_num : (0:Nat) < 24)]
      rw [if_neg (by omega), if_neg (by omega)]
    · intro c j hc hce hj
      have hcm : c % 256 = c := Nat.mod_eq_of_lt (by omega)
      unfold charByte
      dsimp only
      rw [hcm]
      rw [foldl_writeChar_inside (fun i => binLoadCharData bs i true) d0 start count hc2 c j
        hc (by omega) hj]
      rw [binLoadCharData]
      simp only [if_true]
      rw [getD_flatMap_const f 24 count hw (c - start) ((j % 8) * 3 + j / 8) (by omega) (by omega)]
      rw [hf]
      dsimp only
      rw [getD_flatMap_const (fun row =>
        [charByte d (start + (c - start)) row, charByte d (start + (c - start)) (8 + row),
          charByte d (start + (c - start)) (16 + row)]) 3 8 (fun i hi => rfl)
        (j % 8) (j / 8) (by omega) (by omega)]
      have h3 : j / 8 = 0 ∨ j / 8 = 1 ∨ j / 8 = 2 := by omega
      rcases h3 with h3 | h3 | h3 <;>
        · rw [h3]
          simp only [List.getD_cons_zero, List.getD_cons_succ]
          unfold charByte
          exact congrArg d (by omega)

/-- Witness for C2 at a concrete instance (`start = 3`, `end = 5`,
interleaved). -/
theorem binFormat_round_trip_witness :
    (3 ≤ 5 ∧ 5 ≤ 255) ∧
    (∃ bs r, binSave zeroStore 3 5 true = some bs ∧ binLoad bs zeroStore 3 true = some r ∧
      r.2 = 5 + 1 - 3 ∧
      ∀ c j, 3 ≤ c → c ≤ 5 → j < 24 →
        charByte r.1 c j = charByte zeroStore c j) :=
  ⟨by omega, binFormat_round_trip zeroStore zeroStore 3 5 true (by omega) (by omega)⟩

/-- C6: raw load validation and atomicity.  `BinFormat.load` fails
exactly when `floor(len/24) = 0` or `start + floor(len/24) > 256`
(both checks precede any mutation in the source, so a failing call
leaves the target store untouched — in this embedding no store is
produced at all); a successful call returns `floor(len/24)` and leaves
every byte outside the written character range unchanged. -/
theorem binLoad_validation (data : List Nat) (d : Store) (start : Nat) (x3 : Bool) :
    (binLoad data d start x3 = Option.none ↔
      data.length / 24 = 0 ∨ 256 < start + data.length / 24) ∧
    ∀ r, binLoad data d start x3 = some r →
      r.2 = data.length / 24 ∧
      ∀ j, j < start * 24 ∨ (start + data.length / 24) * 24 ≤ j → r.1 j = d j := by
  simp only [binLoad]
  by_cases h1 : data.length / 24 = 0
  · rw [if_pos h1]
    exact ⟨by simp [h1], fun r hr => by cases hr⟩
  · by_cases h2 : 256 < start + data.length / 24
    · rw [if_neg h1, if_pos h2]
      exact ⟨by simp [h1, h2], fun r hr => by cases hr⟩
    · rw [if_neg h1, if_neg h2]
      constructor
      · simp [h1, h2]
      · intro r hr
        have hr' : r = ((List.range (data.length / 24)).foldl
            (fun s i => writeChar s (start + i) (binLoadCharData data i x3)) d,
            data.length / 24) := by
          exact Option.some.inj hr.symm
        subst hr'
        refine ⟨rfl, ?_⟩
        intro j hj
        exact foldl_writeChar_outside _ d start (data.length / 24) (by omega) j hj

/-- Witness for C6 on a concrete 24-byte input. -/
theorem binLoad_validation_witness :
    ((binLoad (List.replicate 24 0) zeroStore 0 false = Option.none ↔
      (List.replicate 24 0 : List Nat).length / 24 = 0 ∨
        256 < 0 + (List.replicate 24 0 : List Nat).length / 24) ∧
    ∀ r, binLoad (List.replicate 24 0) zeroStore 0 false = some r →
      r.2 = (List.replicate 24 0 : List Nat).length / 24 ∧
      ∀ j, j < 0 * 24 ∨ (0 + (List.replicate 24 0 : List Nat).length / 24) * 24 ≤ j →
        r.1 j = zeroStore j) :=
  binLoad_validation (List.replicate 24 0) zeroStore 0 false

/-! ### Edit areas and geometric transforms -/

/-- `EditMode` (src/core/types). -/
inductive EditMode
  | separate
  | vertical
  | horizontal
  | all
deriving DecidableEq

/-- Transform kinds (`RotationType` in src/input/InputEventTypes). -/
inductive TransformType
  | right
  | left
  | up
  | down
  | rot90
  | rot180
  | flipH
  | flipV
deriving DecidableEq

/-- `EditArea` (src/core/EditAreaCalculator). -/
structure EditArea where
  startX : Nat
  startY : Nat
  width : Nat
  height : Nat
  charCodes : List Nat

/-- `getEditArea(editMode, charX, charY)`. -/
def getEditArea (m : EditMode) (charX charY : Nat) : EditArea :=
  match m with
  | .separate => ⟨charX * 8, charY * 8, 8, 8, [charX + charY * 16]⟩
  | .vertical => ⟨charX * 8, 0, 8, 16, [charX, charX + 16]⟩
  | .horizontal => ⟨0, charY * 8, 16, 8, [charY * 16, charY * 16 + 1]⟩
  | .all => ⟨0, 0, 16, 16, [0, 1, 16, 17]⟩

/-- `getCursorCharPos(cursorX, cursorY)`. -/
def getCursorCharPos (cursorX cursorY : Nat) : Nat × Nat :=
  (cursorX / 8, cursorY / 8)

/-- `charCodes[charIdx] || charCodes[0]` with
`charIdx = floor(x/8) + floor(y/8)*(width>8 ? 2 : 1)`.  JavaScript `||`
falls back both on `undefined` (out-of-range index, modelled by the
`getD` default `0`) and on the falsy value `0`. -/
def areaCharCode (area : EditArea) (x y : Nat) : Nat :=
  let charIdx := x / 8 + y / 8 * (if 8 < area.width then 2 else 1)
  let v := area.charCodes.getD charIdx 0
  if v = 0 then area.charCodes.getD 0 0 else v

/-- `EditBufferTransform.getAreaPixels`, as a grid function
`(y, x) ↦ color`. -/
def getAreaPixels (d : Store) (area : EditArea) : Nat → Nat → Nat :=
  fun y x => getPixel d (areaCharCode area x y) (x % 8) (y % 8)

/-- Row-major traversal order of the nested `for y / for x` loops. -/
def areaIndexList (area : EditArea) : List (Nat × Nat) :=
  (List.range area.height).flatMap (fun y => (List.range area.width).map (fun x => (y, x)))

/-- One `setPixel` per region cell, in the source's traversal order,
starting from store `d`. -/
def scatterFold (area : EditArea) (g : Nat → Nat → Nat) (d : Store)
    (l : List (Nat × Nat)) : Store :=
  l.foldl
    (fun s yx => setPixel s (areaCharCode area yx.2 yx.1) (yx.2 % 8) (yx.1 % 8) (g yx.1 yx.2)) d

/-- `EditBufferTransform.setAreaPixels`. -/
def setAreaPixels (d : Store) (area : EditArea) (pixels : Nat → Nat → Nat) : Store :=
  scatterFold area pixels d (areaIndexList area)

/-- `EditBufferTransform.applyTransformation` as a grid transformer.
JS `(x - 1 + width)` and `(y - 1 + height)` are written
`x + width - 1` / `y + height - 1`, identical on the actual (in-range)
arguments but total on `Nat`. -/
def applyTransformation (pixels : Nat → Nat → Nat) (width height : Nat) :
    TransformType → Nat → Nat → Nat
  | .right => fun y x => pixels y ((x + 1) % width)
  | .left => fun y x => pixels y ((x + width - 1) % width)
  | .up => fun y x => pixels ((y + 1) % height) x
  | .down => fun y x => pixels ((y + height - 1) % height) x
  | .rot90 => fun y x => pixels x (width - 1 - y)
  | .rot180 => fun y x => pixels (height - 1 - y) (width - 1 - x)
  | .flipH => fun y x => pixels (height - 1 - y) x
  | .flipV => fun y x => pixels y (width - 1 - x)

/-- `EditBufferTransform.apply(editBuffer, editMode, cursorX, cursorY,
transformType)`, returning the success flag together with the
(possibly) mutated store. -/
def applyTr (d : Store) (m : EditMode) (cursorX cursorY : Nat) (t : TransformType) :
    Bool × Store :=
  let charX := (getCursorCharPos cursorX cursorY).1
  let charY := (getCursorCharPos cursorX cursorY).2
  if (t = .rot90 ∨ t = .rot180) ∧ (m = .vertical ∨ m = .horizontal) then (false, d)
  else
    let area := getEditArea m charX charY
    (true,
      setAreaPixels d area
        (applyTransformation (getAreaPixels d area) area.width area.height t))

/-- C4: geometry incompatibility rejection.  A `rotate90`/`rotate180`
request in `VERTICAL` or `HORIZONTAL` mode returns `false` and returns
the store argument itself — the whole 6144-byte content is untouched
(the check precedes any mutation in the source). -/
theorem applyTr_reject (d : Store) (m : EditMode) (cursorX cursorY : Nat) (t : TransformType)
    (hm : m = .vertical ∨ m = .horizontal) (ht : t = .rot90 ∨ t = .rot180) :
    applyTr d m cursorX cursorY t = (false, d) := by
  rw [applyTr, if_pos ⟨ht, hm⟩]

/-- Witness for C4: `rotate90` in `VERTICAL` mode at cursor (3,12). -/
theorem applyTr_reject_witness :
    ((EditMode.vertical = EditMode.vertical ∨ EditMode.vertical = EditMode.horizontal) ∧
      (TransformType.rot90 = TransformType.rot90 ∨ TransformType.rot90 = TransformType.rot180)) ∧
    applyTr zeroStore EditMode.vertical 3 12 TransformType.rot90 = (false, zeroStore) :=
  ⟨⟨Or.inl rfl, Or.inl rfl⟩,
    applyTr_reject zeroStore EditMode.vertical 3 12 TransformType.rot90
      (Or.inl rfl) (Or.inl rfl)⟩

/-! ### Scatter-fold readback -/

/-- The pixel address targeted when scattering region cell `(y, x)`. -/
def areaKey (area : EditArea) (x y : Nat) : Nat × Nat × Nat :=
  pixKey (areaCharCode area x y) x y

theorem pixKey_mod (c x y : Nat) : pixKey c (x % 8) (y % 8) = pixKey c x y := by
  unfold pixKey
  rw [Nat.mod_mod_of_dvd x (dvd_refl 8), Nat.mod_mod_of_dvd y (dvd_refl 8)]

theorem getPixel_scatterFold_notmem (area : EditArea) (g : Nat → Nat → Nat)
    (l : List (Nat × Nat)) (d : Store) (c x y : Nat)
    (h : ∀ p ∈ l, areaKey area p.2 p.1 ≠ pixKey c x y) :
    getPixel (scatterFold area g d l) c x y = getPixel d c x y := by
  induction l generalizing d with
  | nil => rfl
  | cons p rest ih =>
    rw [scatterFold, List.foldl_cons]
    rw [show List.foldl _ _ rest = scatterFold area g
      (setPixel d (areaCharCode area p.2 p.1) (p.2 % 8) (p.1 % 8) (g p.1 p.2)) rest from rfl]
    rw [ih _ (fun q hq => h q (List.mem_cons_of_mem p hq))]
    apply getPixel_setPixel_ne
    intro hk
    apply h p (List.mem_cons_self p rest)
    rw [areaKey, ← pixKey_mod (areaCharCode area p.2 p.1) p.2 p.1]
    exact hk.symm

theorem scatterFold_append_cons (area : EditArea) (g : Nat → Nat → Nat) (d : Store)
    (l1 l2 : List (Nat × Nat)) (Y X : Nat) :
    scatterFold area g d (l1 ++ (Y, X) :: l2)
      = scatterFold area g
          (setPixel (scatterFold area g d l1) (areaCharCode area X Y) (X % 8) (Y % 8) (g Y X))
          l2 := by
  rw [scatterFold, List.foldl_append, List.foldl_cons]
  rfl

theorem getPixel_scatterFold_found (area : EditArea) (g : Nat → Nat → Nat)
    (l1 l2 : List (Nat × Nat)) (d : Store) (Y X : Nat)
    (h2 : ∀ p ∈ l2, areaKey area p.2 p.1 ≠ areaKey area X Y) :
    getPixel (scatterFold area g d (l1 ++ (Y, X) :: l2)) (areaCharCode area X Y) X Y
      = g Y X &&& 7 := by
  rw [scatterFold_append_cons]
  rw [getPixel_scatterFold_notmem area g l2 _ _ _ _ h2]
  rw [getPixel_setPixel]
  rw [if_pos (pixKey_mod _ X Y).symm]

theorem areaIndexList_mem (area : EditArea) (p : Nat × Nat) :
    p ∈ areaIndexList area ↔ p.1 < area.height ∧ p.2 < area.width := by
  rw [areaIndexList, List.mem_flatMap]
  constructor
  · rintro ⟨y, hy, hp⟩
    rw [List.mem_map] at hp
    obtain ⟨x, hx, rfl⟩ := hp
    rw [List.mem_range] at hy hx
    exact ⟨hy, hx⟩
  · intro h
    refine ⟨p.1, List.mem_range.mpr h.1, List.mem_map.mpr ⟨p.2, List.mem_range.mpr h.2, ?_⟩⟩
    cases p
    rfl

theorem areaIndexList_nodup (area : EditArea) : (areaIndexList area).Nodup := by
  rw [areaIndexList, List.nodup_flatMap]
  constructor
  · intro y _
    exact (List.nodup_range _).map (fun a b h => by injection h)
  · rw [List.pairwise_iff_getElem]
    intro i j hi hj hij
    intro q hqi hqj
    simp only [Function.onFun, List.getElem_range, List.mem_map] at hqi hqj
    obtain ⟨a, _, ha⟩ := hqi
    obtain ⟨b, _, hb⟩ := hqj
    rw [← ha] at hb
    injection hb with hb1 hb2
    omega

/-- Every pixel address not targeted by the region is untouched by
`setAreaPixels`. -/
theorem getPixel_setAreaPixels_outside (d : Store) (area : EditArea) (g : Nat → Nat → Nat)
    (c x y : Nat)
    (h : ∀ X Y, X < area.width → Y < area.height → areaKey area X Y ≠ pixKey c x y) :
    getPixel (setAreaPixels d area g) c x y = getPixel d c x y := by
  apply getPixel_scatterFold_notmem
  intro p hp
  have := (areaIndexList_mem area p).mp hp
  exact h p.2 p.1 this.2 this.1

/-- Injectivity of region-cell pixel addresses (holds for every area
produced by `getEditArea` with a clamped cursor). -/
def AreaKeyInj (area : EditArea) : Prop :=
  ∀ X Y X' Y', X < area.width → Y < area.height → X' < area.width → Y' < area.height →
    areaKey area X Y = areaKey area X' Y' → X = X' ∧ Y = Y'

/-- Reading back a region cell after `setAreaPixels`. -/
theorem getPixel_setAreaPixels_inside (d : Store) (area : EditArea) (g : Nat → Nat → Nat)
    (hinj : AreaKeyInj area) (X Y : Nat) (hX : X < area.width) (hY : Y < area.height) :
    getPixel (setAreaPixels d area g) (areaCharCode area X Y) X Y = g Y X &&& 7 := by
  have hmem : (Y, X) ∈ areaIndexList area := (areaIndexList_mem area (Y, X)).mpr ⟨hY, hX⟩
  obtain ⟨l1, l2, hsplit⟩ := List.append_of_mem hmem
  have hnodup := areaIndexList_nodup area
  rw [hsplit] at hnodup
  have hpnotin : (Y, X) ∉ l2 :=
    (List.nodup_cons.mp (hnodup.of_append_right)).1
  rw [setAreaPixels, hsplit]
  apply getPixel_scatterFold_found
  intro q hq hkey
  have hqmem : q ∈ areaIndexList area := by
    rw [hsplit]
    exact List.mem_append_of_mem_right _ (List.mem_cons_of_mem _ hq)
  have hqreg := (areaIndexList_mem area q).mp hqmem
  obtain ⟨hx', hy'⟩ := hinj q.2 q.1 X Y hqreg.2 hqreg.1 hX hY hkey
  apply hpnotin
  have hq' : q = (Y, X) := by
    obtain ⟨qy, qx⟩ := q
    simp only [Prod.mk.injEq]
    exact ⟨hy', hx'⟩
  exact hq' ▸ hq

/-! ### Concrete area code formulas and key injectivity -/

theorem areaCharCode_separate (cX cY X Y : Nat) (hX : X < 8) (hY : Y < 8) :
    areaCharCode (getEditArea EditMode.separate cX cY) X Y = cX + cY * 16 := by
  simp only [areaCharCode, getEditArea]
  rw [Nat.div_eq_of_lt hX, Nat.div_eq_of_lt hY]
  norm_num

theorem areaCharCode_vertical (cX cY X Y : Nat) (hX : X < 8) (hY : Y < 16) :
    areaCharCode (getEditArea EditMode.vertical cX cY) X Y = cX + 16 * (Y / 8) := by
  simp only [areaCharCode, getEditArea]
  rw [Nat.div_eq_of_lt hX]
  have h2 : Y / 8 = 0 ∨ Y / 8 = 1 := by omega
  rcases h2 with h2 | h2 <;>
    rw [h2] <;>
    norm_num

theorem areaCharCode_horizontal (cX cY X Y : Nat) (hX : X < 16) (hY : Y < 8) :
    areaCharCode (getEditArea EditMode.horizontal cX cY) X Y = cY * 16 + X / 8 := by
  simp only [areaCharCode, getEditArea]
  rw [Nat.div_eq_of_lt hY]
  have h2 : X / 8 = 0 ∨ X / 8 = 1 := by omega
  rcases h2 with h2 | h2 <;>
    rw [h2] <;>
    norm_num

theorem areaCharCode_all (cX cY X Y : Nat) (hX : X < 16) (hY : Y < 16) :
    areaCharCode (getEditArea EditMode.all cX cY) X Y = X / 8 + 16 * (Y / 8) := by
  simp only [areaCharCode, getEditArea]
  have h1 : X / 8 = 0 ∨ X / 8 = 1 := by omega
  have h2 : Y / 8 = 0 ∨ Y / 8 = 1 := by omega
  rcases h1 with h1 | h1 <;> rcases h2 with h2 | h2 <;>
    rw [h1, h2] <;>
    norm_num

theorem areaKeyInj_getEditArea (m : EditMode) (cX cY : Nat) (hcX : cX < 2) (hcY : cY < 2) :
    AreaKeyInj (getEditArea m cX cY) := by
  intro X Y X' Y' hX hY hX' hY' hkey
  cases m with
  | separate =>
    simp only [getEditArea] at hX hY hX' hY'
    rw [areaKey, areaKey, areaCharCode_separate cX cY X Y hX hY,
      areaCharCode_separate cX cY X' Y' hX' hY'] at hkey
    simp only [pixKey, Prod.mk.injEq] at hkey
    obtain ⟨h1, h2, h3⟩ := hkey
    constructor <;> omega
  | vertical =>
    simp only [getEditArea] at hX hY hX' hY'
    rw [areaKey, areaKey, areaCharCode_vertical cX cY X Y hX hY,
      areaCharCode_vertical cX cY X' Y' hX' hY'] at hkey
    simp only [pixKey, Prod.mk.injEq] at hkey
    obtain ⟨h1, h2, h3⟩ := hkey
    constructor <;> omega
  | horizontal =>
    simp only [getEditArea] at hX hY hX' hY'
    rw [areaKey, areaKey, areaCharCode_horizontal cX cY X Y hX hY,
      areaCharCode_horizontal cX cY X' Y' hX' hY'] at hkey
    simp only [pixKey, Prod.mk.injEq] at hkey
    obtain ⟨h1, h2, h3⟩ := hkey
    constructor <;> omega
  | all =>
    simp only [getEditArea] at hX hY hX' hY'
    rw [areaKey, areaKey, areaCharCode_all cX cY X Y hX hY,
      areaCharCode_all cX cY X' Y' hX' hY'] at hkey
    simp only [pixKey, Prod.mk.injEq] at hkey
    obtain ⟨h1, h2, h3⟩ := hkey
    constructor <;> omega

/-! ### Transform application, pixel level -/

/-- The store component of `EditBufferTransform.apply`. -/
def applyStep (d : Store) (m : EditMode) (cx cy : Nat) (t : TransformType) : Store :=
  (applyTr d m cx cy t).2

/-- Iterating `EditBufferTransform.apply` `n` times. -/
def applyIter (d : Store) (m : EditMode) (cx cy : Nat) (t : TransformType) : Nat → Store
  | 0 => d
  | n + 1 => applyStep (applyIter d m cx cy t n) m cx cy t

theorem applyStep_reject (d : Store) (m : EditMode) (cx cy : Nat) (t : TransformType)
    (h : (t = TransformType.rot90 ∨ t = TransformType.rot180) ∧
      (m = EditMode.vertical ∨ m = EditMode.horizontal)) :
    applyStep d m cx cy t = d := by
  rw [applyStep, applyTr_reject d m cx cy t h.2 h.1]

theorem applyStep_accept (d : Store) (m : EditMode) (cx cy : Nat) (t : TransformType)
    (hacc : ¬((t = TransformType.rot90 ∨ t = TransformType.rot180) ∧
      (m = EditMode.vertical ∨ m = EditMode.horizontal))) :
    applyStep d m cx cy t
      = setAreaPixels d (getEditArea m (cx / 8) (cy / 8))
          (applyTransformation (getAreaPixels d (getEditArea m (cx / 8) (cy / 8)))
            (getEditArea m (cx / 8) (cy / 8)).width
            (getEditArea m (cx / 8) (cy / 8)).height t) := by
  simp only [applyStep, applyTr]
  rw [if_neg hacc]
  rfl

theorem getPixel_applyStep_outside (d : Store) (m : EditMode) (cx cy : Nat)
    (t : TransformType)
    (hacc : ¬((t = TransformType.rot90 ∨ t = TransformType.rot180) ∧
      (m = EditMode.vertical ∨ m = EditMode.horizontal)))
    (c x y : Nat)
    (hout : ∀ X Y, X < (getEditArea m (cx / 8) (cy / 8)).width →
      Y < (getEditArea m (cx / 8) (cy / 8)).height →
      areaKey (getEditArea m (cx / 8) (cy / 8)) X Y ≠ pixKey c x y) :
    getPixel (applyStep d m cx cy t) c x y = getPixel d c x y := by
  rw [applyStep_accept d m cx cy t hacc]
  exact getPixel_setAreaPixels_outside d _ _ c x y hout

theorem getAreaPixels_eq (d : Store) (area : EditArea) (Y X : Nat) :
    getAreaPixels d area Y X = getPixel d (areaCharCode area X Y) X Y := by
  rw [getAreaPixels]
  exact getPixel_congr d (pixKey_mod _ X Y)

/-- `&&& 7` is the identity on any transformed region value (all values
come out of `getPixel`, hence lie in `[0,7]`). -/
theorem applyTransformation_area_and7 (d : Store) (area : EditArea) (t : TransformType)
    (Y X : Nat) :
    applyTransformation (getAreaPixels d area) area.width area.height t Y X &&& 7
      = applyTransformation (getAreaPixels d area) area.width area.height t Y X := by
  cases t <;>
    simp only [applyTransformation, getAreaPixels] <;>
    apply and_seven_getPixel

/-- Reading back a region cell after one accepted transform. -/
theorem getAreaPixels_applyStep (d : Store) (m : EditMode) (cx cy : Nat)
    (t : TransformType)
    (hacc : ¬((t = TransformType.rot90 ∨ t = TransformType.rot180) ∧
      (m = EditMode.vertical ∨ m = EditMode.horizontal)))
    (hinj : AreaKeyInj (getEditArea m (cx / 8) (cy / 8)))
    (X Y : Nat) (hX : X < (getEditArea m (cx / 8) (cy / 8)).width)
    (hY : Y < (getEditArea m (cx / 8) (cy / 8)).height) :
    getAreaPixels (applyStep d m cx cy t) (getEditArea m (cx / 8) (cy / 8)) Y X
      = applyTransformation (getAreaPixels d (getEditArea m (cx / 8) (cy / 8)))
          (getEditArea m (cx / 8) (cy / 8)).width
          (getEditArea m (cx / 8) (cy / 8)).height t Y X := by
  rw [getAreaPixels_eq, applyStep_accept d m cx cy t hacc,
    getPixel_setAreaPixels_inside d _ _ hinj X Y hX hY,
    applyTransformation_area_and7]

/-- Applying twice a transform whose index map is an involution of the
region restores every pixel of the store. -/
theorem getPixel_double_invol (d : Store) (m : EditMode) (cx cy : Nat) (t : TransformType)
    (hacc : ¬((t = TransformType.rot90 ∨ t = TransformType.rot180) ∧
      (m = EditMode.vertical ∨ m = EditMode.horizontal)))
    (hinj : AreaKeyInj (getEditArea m (cx / 8) (cy / 8)))
    (sigma : Nat → Nat → Nat × Nat)
    (hsig : ∀ (g : Nat → Nat → Nat) (Y X : Nat),
      applyTransformation g (getEditArea m (cx / 8) (cy / 8)).width
        (getEditArea m (cx / 8) (cy / 8)).height t Y X = g (sigma Y X).1 (sigma Y X).2)
    (hreg : ∀ Y X, X < (getEditArea m (cx / 8) (cy / 8)).width →
      Y < (getEditArea m (cx / 8) (cy / 8)).height →
      (sigma Y X).2 < (getEditArea m (cx / 8) (cy / 8)).width ∧
        (sigma Y X).1 < (getEditArea m (cx / 8) (cy / 8)).height)
    (hinv : ∀ Y X, X < (getEditArea m (cx / 8) (cy / 8)).width →
      Y < (getEditArea m (cx / 8) (cy / 8)).height →
      sigma (sigma Y X).1 (sigma Y X).2 = (Y, X))
    (c x y : Nat) :
    getPixel (applyStep (applyStep d m cx cy t) m cx cy t) c x y = getPixel d c x y := by
  by_cases hex : ∃ X Y, X < (getEditArea m (cx / 8) (cy / 8)).width ∧
      Y < (getEditArea m (cx / 8) (cy / 8)).height ∧
      areaKey (getEditArea m (cx / 8) (cy / 8)) X Y = pixKey c x y
  · obtain ⟨X, Y, hX, hY, hkey⟩ := hex
    rw [getPixel_congr _ hkey.symm, getPixel_congr d hkey.symm]
    rw [show getPixel (applyStep (applyStep d m cx cy t) m cx cy t)
        (areaCharCode (getEditArea m (cx / 8) (cy / 8)) X Y) X Y
      = getAreaPixels (applyStep (applyStep d m cx cy t) m cx cy t)
        (getEditArea m (cx / 8) (cy / 8)) Y X from (getAreaPixels_eq _ _ Y X).symm]
    rw [getAreaPixels_applyStep _ m cx cy t hacc hinj X Y hX hY]
    rw [hsig]
    rw [getAreaPixels_applyStep d m cx cy t hacc hinj (sigma Y X).2 (sigma Y X).1
      (hreg Y X hX hY).1 (hreg Y X hX hY).2]
    rw [hsig]
    rw [hinv Y X hX hY]
    exact (getAreaPixels_eq d _ Y X)
  · push_neg at hex
    have hout : ∀ X Y, X < (getEditArea m (cx / 8) (cy / 8)).width →
        Y < (getEditArea m (cx / 8) (cy / 8)).height →
        areaKey (getEditArea m (cx / 8) (cy / 8)) X Y ≠ pixKey c x y :=
      fun X Y hX hY => hex X Y hX hY
    rw [getPixel_applyStep_outside _ m cx cy t hacc c x y hout,
      getPixel_applyStep_outside d m cx cy t hacc c x y hout]

theorem right_not_rejected (m : EditMode) :
    ¬((TransformType.right = TransformType.rot90 ∨
        TransformType.right = TransformType.rot180) ∧
      (m = EditMode.vertical ∨ m = EditMode.horizontal)) := by
  rintro ⟨h1 | h1, _⟩ <;> exact absurd h1 (by decide)

theorem flipH_not_rejected (m : EditMode) :
    ¬((TransformType.flipH = TransformType.rot90 ∨
        TransformType.flipH = TransformType.rot180) ∧
      (m = EditMode.vertical ∨ m = EditMode.horizontal)) := by
  rintro ⟨h1 | h1, _⟩ <;> exact absurd h1 (by decide)

/-- Invariant of iterated `moveRight`: after `k` steps every region
cell holds the original cell shifted `k` columns (toroidally), and
every pixel outside the region is untouched. -/
theorem applyIter_right_invariant (d : Store) (m : EditMode) (cx cy : Nat)
    (hinj : AreaKeyInj (getEditArea m (cx / 8) (cy / 8)))
    (hw : 0 < (getEditArea m (cx / 8) (cy / 8)).width) (k : Nat) :
    (∀ Y X, X < (getEditArea m (cx / 8) (cy / 8)).width →
      Y < (getEditArea m (cx / 8) (cy / 8)).height →
      getAreaPixels (applyIter d m cx cy TransformType.right k)
          (getEditArea m (cx / 8) (cy / 8)) Y X
        = getAreaPixels d (getEditArea m (cx / 8) (cy / 8)) Y
            ((X + k) % (getEditArea m (cx / 8) (cy / 8)).width)) ∧
    (∀ c x y, (∀ X Y, X < (getEditArea m (cx / 8) (cy / 8)).width →
        Y < (getEditArea m (cx / 8) (cy / 8)).height →
        areaKey (getEditArea m (cx / 8) (cy / 8)) X Y ≠ pixKey c x y) →
      getPixel (applyIter d m cx cy TransformType.right k) c x y = getPixel d c x y) := by
  induction k with
  | zero =>
    constructor
    · intro Y X hX _
      rw [Nat.add_zero, Nat.mod_eq_of_lt hX]
      rfl
    · intro c x y _
      rfl
  | succ n ih =>
    constructor
    · intro Y X hX hY
      rw [show applyIter d m cx cy TransformType.right (n + 1)
        = applyStep (applyIter d m cx cy TransformType.right n) m cx cy TransformType.right
        from rfl]
      rw [getAreaPixels_applyStep _ m cx cy TransformType.right (right_not_rejected m)
        hinj X Y hX hY]
      rw [show applyTransformation
          (getAreaPixels (applyIter d m cx cy TransformType.right n)
            (getEditArea m (cx / 8) (cy / 8)))
          (getEditArea m (cx / 8) (cy / 8)).width
          (getEditArea m (cx / 8) (cy / 8)).height TransformType.right Y X
        = getAreaPixels (applyIter d m cx cy TransformType.right n)
            (getEditArea m (cx / 8) (cy / 8)) Y
            ((X + 1) % (getEditArea m (cx / 8) (cy / 8)).width) from rfl]
      rw [ih.1 Y ((X + 1) % (getEditArea m (cx / 8) (cy / 8)).width)
        (Nat.mod_lt _ hw) hY]
      rw [Nat.mod_add_mod]
      have harg : X + 1 + n = X + (n + 1) := by omega
      rw [harg]
    · intro c x y hout
      rw [show applyIter d m cx cy TransformType.right (n + 1)
        = applyStep (applyIter d m cx cy TransformType.right n) m cx cy TransformType.right
        from rfl]
      rw [getPixel_applyStep_outside _ m cx cy TransformType.right (right_not_rejected m)
        c x y hout]
      exact ih.2 c x y hout

theorem getEditArea_width_pos (m : EditMode) (cX cY : Nat) :
    0 < (getEditArea m cX cY).width := by
  cases m <;> simp [getEditArea]

/-- C5: transform idempotence at pixel level.  For every store, edit
mode and in-range cursor: `rotate180` twice restores every pixel (in
`VERTICAL`/`HORIZONTAL` mode both calls are rejected without
mutation); `flipH` twice is the identity; and `moveRight` applied
`width` times (the resolved region's width, 8 or 16) is the
identity. -/
theorem transform_idempotence (d : Store) (m : EditMode) (cx cy : Nat)
    (hcx : cx < 16) (hcy : cy < 16) (c x y : Nat) (hc : c < 256) (hx : x < 8) (hy : y < 8) :
    getPixel (applyStep (applyStep d m cx cy TransformType.rot180) m cx cy
        TransformType.rot180) c x y = getPixel d c x y ∧
    getPixel (applyStep (applyStep d m cx cy TransformType.flipH) m cx cy
        TransformType.flipH) c x y = getPixel d c x y ∧
    getPixel (applyIter d m cx cy TransformType.right
        ((getEditArea m (cx / 8) (cy / 8)).width)) c x y = getPixel d c x y := by
  have hcX : cx / 8 < 2 := by omega
  have hcY : cy / 8 < 2 := by omega
  have hinj := areaKeyInj_getEditArea m (cx / 8) (cy / 8) hcX hcY
  have hw := getEditArea_width_pos m (cx / 8) (cy / 8)
  have hh : 0 < (getEditArea m (cx / 8) (cy / 8)).height := by
    cases m <;> simp [getEditArea]
  refine ⟨?_, ?_, ?_⟩
  · rcases Decidable.em (m = EditMode.vertical ∨ m = EditMode.horizontal) with hm | hm
    · rw [applyStep_reject _ m cx cy _ ⟨Or.inr rfl, hm⟩,
        applyStep_reject d m cx cy _ ⟨Or.inr rfl, hm⟩]
    · apply getPixel_double_invol d m cx cy TransformType.rot180
        (fun h => hm h.2) hinj
        (fun Y X => ((getEditArea m (cx / 8) (cy / 8)).height - 1 - Y,
          (getEditArea m (cx / 8) (cy / 8)).width - 1 - X))
      · intro g Y X
        rfl
      · intro Y X hX hY
        constructor <;> · dsimp only; omega
      · intro Y X hX hY
        dsimp only
        rw [Prod.mk.injEq]
        constructor <;> omega
  · apply getPixel_double_invol d m cx cy TransformType.flipH (flipH_not_rejected m) hinj
      (fun Y X => ((getEditArea m (cx / 8) (cy / 8)).height - 1 - Y, X))
    · intro g Y X
      rfl
    · intro Y X hX hY
      constructor <;> · dsimp only; omega
    · intro Y X hX hY
      dsimp only
      rw [Prod.mk.injEq]
      constructor <;> omega
  · have hiter := applyIter_right_invariant d m cx cy hinj hw
      ((getEditArea m (cx / 8) (cy / 8)).width)
    by_cases hex : ∃ X Y, X < (getEditArea m (cx / 8) (cy / 8)).width ∧
        Y < (getEditArea m (cx / 8) (cy / 8)).height ∧
        areaKey (getEditArea m (cx / 8) (cy / 8)) X Y = pixKey c x y
    · obtain ⟨X, Y, hX, hY, hkey⟩ := hex
      rw [getPixel_congr _ hkey.symm, getPixel_congr d hkey.symm]
      rw [← getAreaPixels_eq, ← getAreaPixels_eq]
      rw [hiter.1 Y X hX hY]
      congr 1
      rw [Nat.add_mod_right, Nat.mod_eq_of_lt hX]
    · push_neg at hex
      exact hiter.2 c x y (fun X Y hX hY => hex X Y hX hY)

/-- Witness for C5 at a concrete instance (`ALL` mode, cursor (5,9),
reading back pixel (0x11, 2, 3)). -/
theorem transform_idempotence_witness :
    (5 < 16 ∧ 9 < 16 ∧ 0x11 < 256 ∧ 2 < 8 ∧ 3 < 8) ∧
    (getPixel (applyStep (applyStep zeroStore EditMode.all 5 9 TransformType.rot180)
        EditMode.all 5 9 TransformType.rot180) 0x11 2 3 = getPixel zeroStore 0x11 2 3 ∧
    getPixel (applyStep (applyStep zeroStore EditMode.all 5 9 TransformType.flipH)
        EditMode.all 5 9 TransformType.flipH) 0x11 2 3 = getPixel zeroStore 0x11 2 3 ∧
    getPixel (applyIter zeroStore EditMode.all 5 9 TransformType.right
        ((getEditArea EditMode.all (5 / 8) (9 / 8)).width)) 0x11 2 3
      = getPixel zeroStore 0x11 2 3) :=
  ⟨by omega,
    transform_idempotence zeroStore EditMode.all 5 9 (by omega) (by omega) 0x11 2 3
      (by omega) (by omega) (by omega)⟩

/-! ### Color quantizer (`ColorReducer`) -/

/-- RGBA raster input (`ImageData`): `data` maps channel index to the
`Uint8ClampedArray` byte. -/
structure ImageData where
  width : Nat
  height : Nat
  data : Nat → Nat

/-- `ColorReduceMode` (`'none' | 'reduce' | 'dither' | 'edfs' |
'retro'`). -/
inductive ColorReduceMode
  | nonred
  | reduce
  | dither
  | edfs
  | retro
deriving DecidableEq

/-- The 4×4 Bayer matrix `DITHER_MATRIX`. -/
def ditherMatrix : List (List Nat) :=
  [[1, 9, 3, 11], [13, 5, 15, 7], [4, 12, 2, 10], [16, 8, 14, 6]]

/-- `rgbToX1Color(r, g, b, threshold)`: per-channel threshold, then
`bBit + rBit*2 + gBit*4`.  Channels and threshold are exact rationals
(the JS float arithmetic feeding them never affects the range
invariants). -/
def rgbToX1Color (r g b threshold : ℚ) : Nat :=
  let rBit := if r ≥ threshold then 1 else 0
  let gBit := if g ≥ threshold then 1 else 0
  let bBit := if b ≥ threshold then 1 else 0
  bBit + rBit * 2 + gBit * 4

theorem rgbToX1Color_lt8 (r g b threshold : ℚ) : rgbToX1Color r g b threshold < 8 := by
  rw [rgbToX1Color]
  split <;> split <;> split <;> norm_num

/-- `reduceMode`: plain threshold at 128. -/
def reduceMode (img : ImageData) : List (List Nat) :=
  (List.range img.height).map (fun y =>
    (List.range img.width).map (fun x =>
      rgbToX1Color (img.data ((y * img.width + x) * 4))
        (img.data ((y * img.width + x) * 4 + 1))
        (img.data ((y * img.width + x) * 4 + 2)) 128))

/-- `ditherMode`: one shared spatial threshold
`(DITHER_MATRIX[y%4][x%4] / 17) * 255` for all three channels. -/
def ditherMode (img : ImageData) : List (List Nat) :=
  (List.range img.height).map (fun y =>
    (List.range img.width).map (fun x =>
      rgbToX1Color (img.data ((y * img.width + x) * 4))
        (img.data ((y * img.width + x) * 4 + 1))
        (img.data ((y * img.width + x) * 4 + 2))
        (((ditherMatrix.getD (y % 4) []).getD (x % 4) 0 : ℚ) / 17 * 255)))

/-- The floating-point preprocessing helpers of `retro` mode
(`sigmoidalContrast` with gain −8 / midpoint 0.5, and
`enhanceSaturation` with factor 2.0).  Both round/clamp into
`Uint8ClampedArray` bytes.  Their numeric content depends on IEEE-754
`Math.exp` and rounding, so the embedding abstracts them as arbitrary
per-channel byte functions; claim C9 is independent of their
values. -/
structure RetroOps where
  sigmoidalContrast : Nat → Nat
  enhanceSaturation : Nat → Nat → Nat → Nat × Nat × Nat

/-- The preprocessed (contrast + saturation) RGB triple of pixel
`pix` in `retroMode`. -/
def retroProcessed (rops : RetroOps) (img : ImageData) (pix : Nat) : Nat × Nat × Nat :=
  rops.enhanceSaturation
    (rops.sigmoidalContrast (img.data (pix * 4)))
    (rops.sigmoidalContrast (img.data (pix * 4 + 1)))
    (rops.sigmoidalContrast (img.data (pix * 4 + 2)))

/-- `retroMode`: preprocessing followed by the ordered dither with
threshold range rescaled to `28 + (v/17)*200`. -/
def retroMode (rops : RetroOps) (img : ImageData) : List (List Nat) :=
  (List.range img.height).map (fun y =>
    (List.range img.width).map (fun x =>
      rgbToX1Color ((retroProcessed rops img (y * img.width + x)).1 : ℚ)
        ((retroProcessed rops img (y * img.width + x)).2.1 : ℚ)
        ((retroProcessed rops img (y * img.width + x)).2.2 : ℚ)
        (28 + ((ditherMatrix.getD (y % 4) []).getD (x % 4) 0 : ℚ) / 17 * 200)))

/-- One bounded error-diffusion update
(`diffuse(dx, dy, weight)` of `edfsMode`): adds `err*weight` to the
target buffer cell when it lies inside the image. -/
def bufAdd (buf : Nat → Nat → ℚ × ℚ × ℚ) (w h : Nat) (nx ny : Int)
    (er eg eb weight : ℚ) : Nat → Nat → ℚ × ℚ × ℚ :=
  if 0 ≤ nx ∧ nx < (w : Int) ∧ 0 ≤ ny ∧ ny < (h : Int) then
    fun yy xx =>
      if yy = ny.toNat ∧ xx = nx.toNat then
        ((buf yy xx).1 + er * weight, (buf yy xx).2.1 + eg * weight,
          (buf yy xx).2.2 + eb * weight)
      else buf yy xx
  else buf

/-- The quantized color of pixel `(x, y)` in `edfsMode` (threshold 128
against the running error buffer). -/
def edfsColor (buf : Nat → Nat → ℚ × ℚ × ℚ) (x y : Nat) : Nat :=
  rgbToX1Color (if (buf y x).1 ≥ 128 then 255 else 0)
    (if (buf y x).2.1 ≥ 128 then 255 else 0)
    (if (buf y x).2.2 ≥ 128 then 255 else 0) 128

/-- The four Floyd–Steinberg error-diffusion writes of one pixel, with
`stepX = 1` when scanning left→right and `-1` otherwise. -/
def edfsSpread (buf : Nat → Nat → ℚ × ℚ × ℚ) (w h x y : Nat) (sr : Bool) :
    Nat → Nat → ℚ × ℚ × ℚ :=
  let errR := (buf y x).1 - (if (buf y x).1 ≥ 128 then 255 else 0)
  let errG := (buf y x).2.1 - (if (buf y x).2.1 ≥ 128 then 255 else 0)
  let errB := (buf y x).2.2 - (if (buf y x).2.2 ≥ 128 then 255 else 0)
  let sx : Int := if sr then 1 else -1
  let b1 := bufAdd buf w h ((x : Int) + 1 * sx) (y : Int) errR errG errB (7 / 16)
  let b2 := bufAdd b1 w h ((x : Int) + (-1) * sx) ((y : Int) + 1) errR errG errB (3 / 16)
  let b3 := bufAdd b2 w h ((x : Int) + 0 * sx) ((y : Int) + 1) errR errG errB (5 / 16)
  bufAdd b3 w h ((x : Int) + 1 * sx) ((y : Int) + 1) errR errG errB (1 / 16)

/-- One serpentine row of `edfsMode`; `xs` is the traversal order.
Left→right rows `push` (append right), right→left rows `unshift`
(prepend), reproducing JS row assembly. -/
def edfsRow (w h y : Nat) (sr : Bool) : List Nat → (Nat → Nat → ℚ × ℚ × ℚ) →
    List Nat × (Nat → Nat → ℚ × ℚ × ℚ)
  | [], buf => ([], buf)
  | x :: xs, buf =>
    let c := edfsColor buf x y
    let rest := edfsRow w h y sr xs (edfsSpread buf w h x y sr)
    (if sr then c :: rest.1 else rest.1 ++ [c], rest.2)

/-- All rows of `edfsMode`, threading the error buffer. -/
def edfsRows (w h : Nat) : List Nat → (Nat → Nat → ℚ × ℚ × ℚ) → List (List Nat)
  | [], _ => []
  | y :: ys, buf =>
    let sr := decide (y % 2 = 0)
    let xs := if sr then List.range w else (List.range w).reverse
    let step := edfsRow w h y sr xs buf
    step.1 :: edfsRows w h ys step.2

/-- The initial float buffer of `edfsMode` (RGB of every pixel). -/
def edfsInitBuf (img : ImageData) : Nat → Nat → ℚ × ℚ × ℚ :=
  fun y x => ((img.data ((y * img.width + x) * 4) : ℚ),
    (img.data ((y * img.width + x) * 4 + 1) : ℚ),
    (img.data ((y * img.width + x) * 4 + 2) : ℚ))

/-- `edfsMode`: serpentine Floyd–Steinberg error diffusion. -/
def edfsMode (img : ImageData) : List (List Nat) :=
  edfsRows img.width img.height (List.range img.height) (edfsInitBuf img)

/-- `reduceColors(imageData, mode)`; `'none'` (constructor `nonred`)
falls through to `reduceMode` like the source's `default` branch. -/
def reduceColors (rops : RetroOps) (img : ImageData) : ColorReduceMode → List (List Nat)
  | .reduce => reduceMode img
  | .dither => ditherMode img
  | .edfs => edfsMode img
  | .retro => retroMode rops img
  | .nonred => reduceMode img

theorem edfsRow_length (w h y : Nat) (sr : Bool) (xs : List Nat)
    (buf : Nat → Nat → ℚ × ℚ × ℚ) :
    (edfsRow w h y sr xs buf).1.length = xs.length := by
  induction xs generalizing buf with
  | nil => rfl
  | cons x xs ih =>
    rw [edfsRow]
    split <;> simp [ih]

theorem edfsRow_cells (w h y : Nat) (sr : Bool) (xs : List Nat)
    (buf : Nat → Nat → ℚ × ℚ × ℚ) :
    ∀ cell ∈ (edfsRow w h y sr xs buf).1, cell < 8 := by
  induction xs generalizing buf with
  | nil => intro cell h; cases h
  | cons x xs ih =>
    intro cell hc
    rw [edfsRow] at hc
    rcases sr with _ | _
    · simp only [Bool.false_eq_true, if_false, List.mem_append, List.mem_singleton] at hc
      rcases hc with hc | hc
      · exact ih _ cell hc
      · rw [hc]; exact rgbToX1Color_lt8 _ _ _ _
    · simp only [if_true, List.mem_cons] at hc
      rcases hc with hc | hc
      · rw [hc]; exact rgbToX1Color_lt8 _ _ _ _
      · exact ih _ cell hc

theorem edfsRows_length (w h : Nat) (ys : List Nat) (buf : Nat → Nat → ℚ × ℚ × ℚ) :
    (edfsRows w h ys buf).length = ys.length := by
  induction ys generalizing buf with
  | nil => rfl
  | cons y ys ih => rw [edfsRows]; simp [ih]

theorem edfsRows_rows (w h : Nat) (ys : List Nat) (buf : Nat → Nat → ℚ × ℚ × ℚ) :
    ∀ row ∈ edfsRows w h ys buf, row.length = w ∧ ∀ cell ∈ row, cell < 8 := by
  induction ys generalizing buf with
  | nil => intro row h; cases h
  | cons y ys ih =>
    intro row hr
    rw [edfsRows] at hr
    rcases List.mem_cons.mp hr with hr | hr
    · subst hr
      refine ⟨?_, edfsRow_cells _ _ _ _ _ _⟩
      rw [edfsRow_length]
      split <;> simp
    · exact ih _ row hr

/-- C9: quantizer totality invariant.  For every input image, every
mode and any behavior of the floating-point `retro` preprocessing
helpers, `reduceColors` yields a grid with exactly `height` rows, every
row of length `width`, and every cell in `[0,7]`. -/
theorem reduceColors_total (rops : RetroOps) (img : ImageData) (mode : ColorReduceMode) :
    (reduceColors rops img mode).length = img.height ∧
    (∀ row ∈ reduceColors rops img mode, row.length = img.width) ∧
    (∀ row ∈ reduceColors rops img mode, ∀ cell ∈ row, cell < 8) := by
  cases mode with
  | edfs =>
    refine ⟨?_, ?_, ?_⟩
    · rw [reduceColors, edfsMode, edfsRows_length, List.length_range]
    · intro row hr
      exact ((edfsRows_rows _ _ _ _ row hr).1)
    · intro row hr
      exact ((edfsRows_rows _ _ _ _ row hr).2)
  | reduce =>
    refine ⟨by simp [reduceColors, reduceMode], ?_, ?_⟩
    · intro row hr
      simp only [reduceColors, reduceMode, List.mem_map] at hr
      obtain ⟨y, _, rfl⟩ := hr
      simp
    · intro row hr cell hc
      simp only [reduceColors, reduceMode, List.mem_map] at hr
      obtain ⟨y, _, rfl⟩ := hr
      simp only [List.mem_map] at hc
      obtain ⟨x, _, rfl⟩ := hc
      exact rgbToX1Color_lt8 _ _ _ _
  | nonred =>
    refine ⟨by simp [reduceColors, reduceMode], ?_, ?_⟩
    · intro row hr
      simp only [reduceColors, reduceMode, List.mem_map] at hr
      obtain ⟨y, _, rfl⟩ := hr
      simp
    · intro row hr cell hc
      simp only [reduceColors, reduceMode, List.mem_map] at hr
      obtain ⟨y, _, rfl⟩ := hr
      simp only [List.mem_map] at hc
      obtain ⟨x, _, rfl⟩ := hc
      exact rgbToX1Color_lt8 _ _ _ _
  | dither =>
    refine ⟨by simp [reduceColors, ditherMode], ?_, ?_⟩
    · intro row hr
      simp only [reduceColors, ditherMode, List.mem_map] at hr
      obtain ⟨y, _, rfl⟩ := hr
      simp
    · intro row hr cell hc
      simp only [reduceColors, ditherMode, List.mem_map] at hr
      obtain ⟨y, _, rfl⟩ := hr
      simp only [List.mem_map] at hc
      obtain ⟨x, _, rfl⟩ := hc
      exact rgbToX1Color_lt8 _ _ _ _
  | retro =>
    refine ⟨by simp [reduceColors, retroMode], ?_, ?_⟩
    · intro row hr
      simp only [reduceColors, retroMode, List.mem_map] at hr
      obtain ⟨y, _, rfl⟩ := hr
      simp
    · intro row hr cell hc
      simp only [reduceColors, retroMode, List.mem_map] at hr
      obtain ⟨y, _, rfl⟩ := hr
      simp only [List.mem_map] at hc
      obtain ⟨x, _, rfl⟩ := hc
      exact rgbToX1Color_lt8 _ _ _ _

/-! ### Program codec (`BasFormat`) — text model

JavaScript strings are modelled as lists of UTF-16 code units
(`List Nat`).  All content handled here is ASCII, so `TextDecoder`
(UTF-8) acts as the identity on code units. -/

/-- `BAS_LINE_START` (src/core/constants). -/
def basLineStart : Nat := 60960

/-- One uppercase hex digit, as produced by
`toString(16).toUpperCase()` on a nibble. -/
def hexCharCode (n : Nat) : Nat := if n < 10 then 48 + n else 55 + n

/-- `b.toString(16).toUpperCase().padStart(2, '0')` for a `Uint8Array`
byte (`b < 256`): exactly two uppercase hex digits. -/
def byteToHexCodes (b : Nat) : List Nat :=
  [hexCharCode (b / 16 % 16), hexCharCode (b % 16)]

/-- The 48-character hex string of one character's 24 bytes. -/
def charHex (d : Store) (code : Nat) : List Nat :=
  (List.range 24).flatMap (fun j => byteToHexCodes (charByte d code j))

/-- Decimal digit string of `n` (JS number-to-string interpolation),
with an explicit fuel argument for structural recursion. -/
def natDecDigitsAux : Nat → Nat → List Nat
  | 0, _ => []
  | fuel + 1, n => if n < 10 then [48 + n] else natDecDigitsAux fuel (n / 10) ++ [48 + n % 10]

def natDecDigits (n : Nat) : List Nat := natDecDigitsAux (n + 1) n

/-- Code units of `"DEFCHR$("`. -/
def defchrHead : List Nat := [68, 69, 70, 67, 72, 82, 36, 40]

/-- Code units of `")=HEXCHR$(\""`. -/
def defchrMid : List Nat := [41, 61, 72, 69, 88, 67, 72, 82, 36, 40, 34]

/-- Code units of `"\")"`. -/
def defchrTail : List Nat := [34, 41]

/-- One generated ASCII line:
`${lineNum}DEFCHR$(${charCode})=HEXCHR$("${hexStr}")`. -/
def asciiLine (d : Store) (start i : Nat) : List Nat :=
  natDecDigits (basLineStart + i * 10) ++ defchrHead ++ natDecDigits (start + i)
    ++ defchrMid ++ charHex d (start + i) ++ defchrTail

/-- `lines.join('\r')`. -/
def joinCR : List (List Nat) → List Nat
  | [] => []
  | [l] => l
  | l :: ls => l ++ 13 :: joinCR ls

/-- `BasFormat.saveAscii`; `none` models the `Invalid range` throw.
The file body is `lines.join('\r') + '\r'` (CR only, no LF). -/
def saveAscii (d : Store) (start e : Nat) : Option (List Nat) :=
  if e < start then Option.none
  else some (joinCR ((List.range (e + 1 - start)).map (fun i => asciiLine d start i)) ++ [13])

/-- `'start' | 'original'` target-resolution mode. -/
inductive LoadMode
  | start
  | original
deriving DecidableEq

/-- JS `\s` on the characters at issue (ASCII whitespace). -/
def isSpaceCh (c : Nat) : Bool :=
  c = 32 || c = 9 || c = 10 || c = 11 || c = 12 || c = 13

def isDigitCh (c : Nat) : Bool := 48 ≤ c && c ≤ 57

/-- The character class `[0-9A-Fa-f]`. -/
def isHexDigitCh (c : Nat) : Bool :=
  isDigitCh c || (65 ≤ c && c ≤ 70) || (97 ≤ c && c ≤ 102)

/-- Case folding for the regex's `/i` flag. -/
def upperCh (c : Nat) : Nat := if 97 ≤ c && c ≤ 122 then c - 32 else c

/-- `\s*` (maximal munch; equivalent to the regex because every
following literal in the pattern is a non-space character). -/
def skipSpaces : List Nat → List Nat
  | [] => []
  | c :: rest => if isSpaceCh c then skipSpaces rest else c :: rest

/-- One literal character, case-insensitively. -/
def litCh (c : Nat) : List Nat → Option (List Nat)
  | [] => Option.none
  | a :: rest => if upperCh a = upperCh c then some rest else Option.none

def litStr : List Nat → List Nat → Option (List Nat)
  | [], s => some s
  | c :: cs, s =>
    match litCh c s with
    | Option.none => Option.none
    | some s2 => litStr cs s2

/-- `p+` by maximal munch (equivalent to the regex's greedy `+` here
because the character following each group in the pattern never
matches `p`). -/
def takeClass1 (p : Nat → Bool) (s : List Nat) : Option (List Nat × List Nat) :=
  if (s.takeWhile p).isEmpty then Option.none else some (s.takeWhile p, s.dropWhile p)

/-- Matching the line regex
`DEFCHR\$\s*\(\s*(\d+)\s*\)\s*=\s*HEXCHR\$\s*\(\s*"([0-9A-Fa-f]+)"\s*\)/i`
at the head of `s`; returns the two capture groups. -/
def matchDefchrAt (s : List Nat) : Option (List Nat × List Nat) := do
  let s ← litStr [68, 69, 70, 67, 72, 82, 36] s
  let s ← litCh 40 (skipSpaces s)
  let (ds, s) ← takeClass1 isDigitCh (skipSpaces s)
  let s ← litCh 41 (skipSpaces s)
  let s ← litCh 61 (skipSpaces s)
  let s ← litStr [72, 69, 88, 67, 72, 82, 36] (skipSpaces s)
  let s ← litCh 40 (skipSpaces s)
  let s ← litCh 34 (skipSpaces s)
  let (hs, s) ← takeClass1 isHexDigitCh s
  let s ← litCh 34 s
  let _ ← litCh 41 (skipSpaces s)
  pure (ds, hs)

/-- `line.match(defchrPattern)`: leftmost match — try every start
position left to right. -/
def firstDefchrMatch : List Nat → Option (List Nat × List Nat)
  | [] => Option.none
  | c :: rest =>
    match matchDefchrAt (c :: rest) with
    | some r => some r
    | Option.none => firstDefchrMatch rest

/-- `parseInt(digits, 10)` on an all-digit capture. -/
def parseIntDec (ds : List Nat) : Nat := ds.foldl (fun a c => a * 10 + (c - 48)) 0

/-- `parseInt(pair, 16)` value of one hex character. -/
def hexVal (c : Nat) : Nat :=
  if 48 ≤ c ∧ c ≤ 57 then c - 48
  else if 65 ≤ c ∧ c ≤ 70 then c - 55
  else if 97 ≤ c ∧ c ≤ 102 then c - 87
  else 0

/-- The 24 bytes decoded from a 48-char hex capture
(`parseInt(hexStr.substr(i*2, 2), 16)`). -/
def hexPairsToBytes (hs : List Nat) : Nat → Nat :=
  fun i => hexVal (hs.getD (i * 2) 0) * 16 + hexVal (hs.getD (i * 2 + 1) 0)

/-- `text.split(/\r\n|\r|\n/)`. -/
def splitLines : List Nat → List (List Nat)
  | [] => [[]]
  | c :: rest =>
    if c = 13 then
      match rest with
      | r :: rest2 => if r = 10 then [] :: splitLines rest2 else [] :: splitLines (r :: rest2)
      | [] => [] :: splitLines []
    else if c = 10 then [] :: splitLines rest
    else
      match splitLines rest with
      | [] => [[c]]
      | l :: ls => (c :: l) :: ls

/-- The per-line loop of `BasFormat.loadAsciiText`: `targetCode < 0`
cannot occur over `Nat`; the `currentCode > 255` break happens after
the post-write increment, exactly as in the source. -/
def asciiLoop (mode : LoadMode) : List (List Nat) → Store → Nat → Nat → Store × Nat
  | [], d, count, _ => (d, count)
  | line :: rest, d, count, cur =>
    match firstDefchrMatch line with
    | Option.none => asciiLoop mode rest d count cur
    | some (ds, hs) =>
      if hs.length ≠ 48 then asciiLoop mode rest d count cur
      else
        let targetCode := match mode with
          | .original => parseIntDec ds
          | .start => cur
        if 255 < targetCode then
          match mode with
          | .start => asciiLoop mode rest d count (cur + 1)
          | .original => asciiLoop mode rest d count cur
        else
          let d2 := writeChar d targetCode (hexPairsToBytes hs)
          match mode with
          | .start =>
            if 255 < cur + 1 then (d2, count + 1)
            else asciiLoop mode rest d2 (count + 1) (cur + 1)
          | .original => asciiLoop mode rest d2 (count + 1) cur

/-- `BasFormat.loadAsciiText(text, pcgData, start, mode)`. -/
def loadAsciiText (text : List Nat) (d : Store) (start : Nat) (mode : LoadMode) :
    Store × Nat :=
  asciiLoop mode (splitLines text) d 0 start

/-! ### Program codec (`BasFormat`) — binary variant -/

/-- `generateLine(lineNum, charCode, hexStr)`: line number (u16le),
`DEFCHR$` tokens `B2 FF A0`, `(`, the 16-bit integer literal
`12 lo hi`, `)`, `=` (`F4`), `HEXCHR$` (`FF BF`), `(`, `"`,
48 hex chars, `"`, `)`, line terminator `00`. -/
def basBinLine (lineNum code : Nat) (hex : List Nat) : List Nat :=
  [lineNum % 256, lineNum / 256 % 256, 0xB2, 0xFF, 0xA0, 0x28, 0x12, code % 256,
    code / 256 % 256, 0x29, 0xF4, 0xFF, 0xBF, 0x28, 0x22] ++ hex ++ [0x22, 0x29, 0x00]

/-- The full on-disk bytes of line `i`: the u16le link pointer
`2 + lineData.length` followed by the line data. -/
def basBinChunk (d : Store) (start i : Nat) : List Nat :=
  [(2 + (basBinLine (basLineStart + i * 10) (start + i) (charHex d (start + i))).length) % 256,
    (2 + (basBinLine (basLineStart + i * 10) (start + i) (charHex d (start + i))).length)
      / 256 % 256]
    ++ basBinLine (basLineStart + i * 10) (start + i) (charHex d (start + i))

/-- `BasFormat.saveBinary`: per line a u16le link pointer then the
line data; a `00 00` program terminator at the end. -/
def saveBinary (d : Store) (start e : Nat) : Option (List Nat) :=
  if e < start then Option.none
  else some (((List.range (e + 1 - start)).flatMap (basBinChunk d start)) ++ [0, 0])

/-- `BasFormat.parseDefchrBinaryLine(data, offset, lineEnd)`:
`offset` points at the `B2` token; returns the character code and the
48-character hex string, or `none` on any grammar violation.
Out-of-range reads (`data[i]` = `undefined` in JS) are modelled by the
`getD` default `0`, which fails the same comparisons. -/
def parseDefchrBinaryLine (data : List Nat) (offset lineEnd : Nat) :
    Option (Nat × List Nat) :=
  let o1 := offset + 3
  if lineEnd ≤ o1 ∨ data.getD o1 0 ≠ 0x28 then Option.none else
  let o2 := o1 + 1
  let intRes : Option (Nat × Nat) :=
    if data.getD o2 0 = 0x12 then
      if lineEnd < o2 + 3 then Option.none
      else some (data.getD (o2 + 1) 0 ||| (data.getD (o2 + 2) 0 <<< 8), o2 + 3)
    else if 2 ≤ data.getD o2 0 ∧ data.getD o2 0 ≤ 0x0A then
      some (data.getD o2 0 - 1, o2 + 1)
    else Option.none
  match intRes with
  | Option.none => Option.none
  | some (charCode, o3) =>
    if lineEnd ≤ o3 ∨ data.getD o3 0 ≠ 0x29 then Option.none else
    let o4 := o3 + 1
    if lineEnd ≤ o4 ∨ data.getD o4 0 ≠ 0xF4 then Option.none else
    let o5 := o4 + 1
    if lineEnd < o5 + 2 ∨ data.getD o5 0 ≠ 0xFF ∨ data.getD (o5 + 1) 0 ≠ 0xBF then
      Option.none else
    let o6 := o5 + 2
    if lineEnd ≤ o6 ∨ data.getD o6 0 ≠ 0x28 then Option.none else
    let o7 := o6 + 1
    if lineEnd ≤ o7 ∨ data.getD o7 0 ≠ 0x22 then Option.none else
    let o8 := o7 + 1
    if lineEnd < o8 + 48 then Option.none else
    let hexStr := (List.range 48).map (fun i => data.getD (o8 + i) 0)
    let o9 := o8 + 48
    if lineEnd ≤ o9 ∨ data.getD o9 0 ≠ 0x22 then Option.none else
    if hexStr.all isHexDigitCh then some (charCode, hexStr) else Option.none

/-- The `while` loop of `BasFormat.loadBinary`, with explicit fuel.
Each iteration advances `offset` by a nonzero link, so `data.length`
iterations always suffice; `loadBinary` supplies `data.length + 1`. -/
def loadBinaryLoop (data : List Nat) (mode : LoadMode) :
    Nat → Store → Nat → Nat → Nat → Store × Nat
  | 0, d, count, _, _ => (d, count)
  | fuel + 1, d, count, cur, offset =>
    if offset < data.length - 1 then
      let link := data.getD offset 0 ||| (data.getD (offset + 1) 0 <<< 8)
      if link = 0 then (d, count)
      else
        if offset + 4 + 3 ≤ offset + link - 1 ∧ data.getD (offset + 4) 0 = 0xB2 ∧
            data.getD (offset + 5) 0 = 0xFF ∧ data.getD (offset + 6) 0 = 0xA0 then
          match parseDefchrBinaryLine data (offset + 4) (offset + link - 1) with
          | some (originalCode, hexStr) =>
            let targetCode := match mode with
              | .original => originalCode
              | .start => cur
            if targetCode ≤ 255 then
              let d2 := writeChar d targetCode (hexPairsToBytes hexStr)
              match mode with
              | .start =>
                if 255 < cur + 1 then (d2, count + 1)
                else loadBinaryLoop data mode fuel d2 (count + 1) (cur + 1) (offset + link)
              | .original => loadBinaryLoop data mode fuel d2 (count + 1) cur (offset + link)
            else loadBinaryLoop data mode fuel d count cur (offset + link)
          | Option.none => loadBinaryLoop data mode fuel d count cur (offset + link)
        else loadBinaryLoop data mode fuel d count cur (offset + link)
    else (d, count)

/-- `BasFormat.loadBinary(data, pcgData, start, mode)`. -/
def loadBinary (data : List Nat) (d : Store) (start : Nat) (mode : LoadMode) :
    Store × Nat :=
  loadBinaryLoop data mode (data.length + 1) d 0 start 0

/-- `BasFormat.load`: auto-detect — any `0x00` byte means binary,
otherwise UTF-8 text (the identity on the ASCII content at issue). -/
def basLoad (data : List Nat) (d : Store) (start : Nat) (mode : LoadMode) :
    Store × Nat :=
  if data.contains 0 then loadBinary data d start mode
  else loadAsciiText data d start mode

/-! ### Digit-string and scanner lemmas -/

theorem natDecDigitsAux_digits (fuel : Nat) :
    ∀ n, ∀ c ∈ natDecDigitsAux fuel n, 48 ≤ c ∧ c ≤ 57 := by
  induction fuel with
  | zero => intro n c hc; cases hc
  | succ f ih =>
    intro n c hc
    rw [natDecDigitsAux] at hc
    split at hc
    · next h =>
      simp only [List.mem_singleton] at hc
      omega
    · next h =>
      rcases List.mem_append.mp hc with hc | hc
      · exact ih _ c hc
      · simp only [List.mem_singleton] at hc
        have := Nat.mod_lt n (show 0 < 10 by norm_num)
        omega

theorem natDecDigits_digits (n : Nat) : ∀ c ∈ natDecDigits n, 48 ≤ c ∧ c ≤ 57 :=
  natDecDigitsAux_digits (n + 1) n

theorem natDecDigitsAux_ne_nil (fuel n : Nat) (h : 0 < fuel) :
    natDecDigitsAux fuel n ≠ [] := by
  cases fuel with
  | zero => omega
  | succ f =>
    rw [natDecDigitsAux]
    split
    · simp
    · simp

theorem natDecDigits_ne_nil (n : Nat) : natDecDigits n ≠ [] :=
  natDecDigitsAux_ne_nil (n + 1) n (by omega)

theorem parseIntDec_append_digit (ds : List Nat) (c : Nat) :
    parseIntDec (ds ++ [c]) = parseIntDec ds * 10 + (c - 48) := by
  simp [parseIntDec, List.foldl_append]

theorem parseIntDec_natDecDigitsAux (fuel : Nat) :
    ∀ n, n < fuel → parseIntDec (natDecDigitsAux fuel n) = n := by
  induction fuel with
  | zero => omega
  | succ f ih =>
    intro n hn
    rw [natDecDigitsAux]
    split
    · next h =>
      simp only [parseIntDec, List.foldl_cons, List.foldl_nil]
      omega
    · next h =>
      rw [parseIntDec_append_digit, ih (n / 10) (by omega)]
      omega

theorem parseIntDec_natDecDigits (n : Nat) : parseIntDec (natDecDigits n) = n :=
  parseIntDec_natDecDigitsAux (n + 1) n (by omega)

theorem skipSpaces_cons_not (c : Nat) (s : List Nat) (h : isSpaceCh c = false) :
    skipSpaces (c :: s) = c :: s := by
  rw [skipSpaces, h]
  simp

theorem litCh_cons (c a : Nat) (s : List Nat) (h : upperCh a = upperCh c) :
    litCh c (a :: s) = some s := by
  rw [litCh, if_pos h]

theorem takeWhile_append_class (p : Nat → Bool) :
    ∀ (ds rest : List Nat), (∀ c ∈ ds, p c = true) →
      (∀ c, rest.head? = some c → p c = false) →
      (ds ++ rest).takeWhile p = ds ∧ (ds ++ rest).dropWhile p = rest := by
  intro ds
  induction ds with
  | nil =>
    intro rest _ hrest
    cases rest with
    | nil => exact ⟨rfl, rfl⟩
    | cons c t =>
      have := hrest c rfl
      simp [List.takeWhile, List.dropWhile, this]
  | cons a ds ih =>
    intro rest hds hrest
    have ha : p a = true := hds a (List.mem_cons_self a ds)
    have := ih rest (fun c hc => hds c (List.mem_cons_of_mem a hc)) hrest
    simp [List.takeWhile, List.dropWhile, ha, this.1, this.2]

theorem takeClass1_append (p : Nat → Bool) (ds rest : List Nat)
    (h1 : ∀ c ∈ ds, p c = true) (h2 : ds ≠ [])
    (h3 : ∀ c, rest.head? = some c → p c = false) :
    takeClass1 p (ds ++ rest) = some (ds, rest) := by
  obtain ⟨ht, hd⟩ := takeWhile_append_class p ds rest h1 h3
  rw [takeClass1, ht, hd]
  rw [if_neg (by simp [List.isEmpty_iff, h2])]

theorem isSpaceCh_of_digit (c : Nat) (h : isDigitCh c = true) : isSpaceCh c = false := by
  simp only [isDigitCh, Bool.and_eq_true, decide_eq_true_eq] at h
  simp only [isSpaceCh]
  simp only [Bool.or_eq_false_iff, decide_eq_false_iff_not]
  omega

theorem matchDefchrAt_wellformed (ds hs : List Nat)
    (hds1 : ∀ c ∈ ds, isDigitCh c = true) (hds2 : ds ≠ [])
    (hhs1 : ∀ c ∈ hs, isHexDigitCh c = true) (hhs2 : hs ≠ []) :
    matchDefchrAt (defchrHead ++ ds ++ defchrMid ++ hs ++ defchrTail) = some (ds, hs) := by
  obtain ⟨d0, ds', rfl⟩ : ∃ d0 ds', ds = d0 :: ds' := by
    cases ds with
    | nil => exact absurd rfl hds2
    | cons a b => exact ⟨a, b, rfl⟩
  obtain ⟨h0, hs', rfl⟩ : ∃ h0 hs', hs = h0 :: hs' := by
    cases hs with
    | nil => exact absurd rfl hhs2
    | cons a b => exact ⟨a, b, rfl⟩
  have hd0 : isDigitCh d0 = true := hds1 d0 (List.mem_cons_self _ _)
  have htake1 : takeClass1 isDigitCh ((d0 :: ds') ++ (defchrMid ++ ((h0 :: hs') ++ defchrTail)))
      = some (d0 :: ds', defchrMid ++ ((h0 :: hs') ++ defchrTail)) := by
    apply takeClass1_append _ _ _ hds1 (by simp)
    intro c hc
    simp only [defchrMid, List.head?] at hc
    cases hc
    decide
  have htake2 : takeClass1 isHexDigitCh ((h0 :: hs') ++ defchrTail)
      = some (h0 :: hs', defchrTail) := by
    apply takeClass1_append _ _ _ hhs1 (by simp)
    intro c hc
    simp only [defchrTail, List.head?] at hc
    cases hc
    decide
  simp only [matchDefchrAt, defchrHead, defchrMid, defchrTail, List.cons_append,
    List.nil_append, litStr, litCh, upperCh, bind, Option.bind] at htake1 htake2 ⊢
  norm_num
  rw [skipSpaces_cons_not 40 _ (by decide)]
  norm_num
  rw [skipSpaces_cons_not d0 _ (isSpaceCh_of_digit d0 hd0)]
  rw [htake1]
  norm_num
  rw [skipSpaces_cons_not 41 _ (by decide)]
  norm_num
  rw [skipSpaces_cons_not 61 _ (by decide)]
  norm_num
  rw [skipSpaces_cons_not 72 _ (by decide)]
  norm_num
  rw [skipSpaces_cons_not 40 _ (by decide)]
  norm_num
  rw [skipSpaces_cons_not 34 _ (by decide)]
  norm_num
  rw [htake2]
  norm_num
  rw [skipSpaces_cons_not 41 _ (by decide)]
  norm_num

/-- A digit cannot begin a regex match (`D`/`d` is required first). -/
theorem matchDefchrAt_digit_head (c : Nat) (rest : List Nat) (hc : isDigitCh c = true) :
    matchDefchrAt (c :: rest) = Option.none := by
  have : upperCh c = c := by
    simp only [isDigitCh, Bool.and_eq_true, decide_eq_true_eq] at hc
    simp only [upperCh]
    rw [if_neg (by simp; omega)]
  simp only [matchDefchrAt, litStr, litCh, bind, Option.bind, this]
  rw [if_neg (by
    simp only [isDigitCh, Bool.and_eq_true, decide_eq_true_eq] at hc
    simp only [upperCh]
    norm_num
    omega)]

theorem firstDefchrMatch_skip_digits (pre : List Nat)
    (hpre : ∀ c ∈ pre, isDigitCh c = true) (s : List Nat) :
    firstDefchrMatch (pre ++ s) = firstDefchrMatch s := by
  induction pre with
  | nil => rfl
  | cons c pre ih =>
    rw [List.cons_append, firstDefchrMatch,
      matchDefchrAt_digit_head c _ (hpre c (List.mem_cons_self _ _))]
    exact ih (fun a ha => hpre a (List.mem_cons_of_mem _ ha))

theorem firstDefchrMatch_of_matchAt (s : List Nat) (r : List Nat × List Nat)
    (h : matchDefchrAt s = some r) : firstDefchrMatch s = some r := by
  cases s with
  | nil => rw [matchDefchrAt] at h; simp [litStr, litCh, bind, Option.bind] at h
  | cons c rest => rw [firstDefchrMatch, h]

/-! ### Saved-line structure facts -/

theorem isDigitCh_of_range (c : Nat) (h1 : 48 ≤ c) (h2 : c ≤ 57) : isDigitCh c = true := by
  simp only [isDigitCh, Bool.and_eq_true, decide_eq_true_eq]
  omega

theorem natDecDigits_isDigit (n : Nat) : ∀ c ∈ natDecDigits n, isDigitCh c = true :=
  fun c hc => isDigitCh_of_range c (natDecDigits_digits n c hc).1 (natDecDigits_digits n c hc).2

theorem isHexDigitCh_hexCharCode (v : Nat) (hv : v < 16) :
    isHexDigitCh (hexCharCode v) = true := by
  interval_cases v <;> decide

theorem charHex_length (d : Store) (code : Nat) : (charHex d code).length = 48 := by
  have := length_flatMap_const (fun j => byteToHexCodes (charByte d code j)) 2 24
    (fun i _ => rfl)
  simpa [charHex] using this

theorem charHex_isHex (d : Store) (code : Nat) :
    ∀ c ∈ charHex d code, isHexDigitCh c = true := by
  intro c hc
  rw [charHex, List.mem_flatMap] at hc
  obtain ⟨j, _, hj⟩ := hc
  rw [byteToHexCodes] at hj
  rcases List.mem_cons.mp hj with h | h
  · rw [h]
    exact isHexDigitCh_hexCharCode _ (Nat.mod_lt _ (by norm_num))
  · simp only [List.mem_singleton] at h
    rw [h]
    exact isHexDigitCh_hexCharCode _ (Nat.mod_lt _ (by norm_num))

theorem charHex_ne_nil (d : Store) (code : Nat) : charHex d code ≠ [] := by
  intro h
  have := charHex_length d code
  rw [h] at this
  cases this

theorem hexVal_hexCharCode (v : Nat) (hv : v < 16) : hexVal (hexCharCode v) = v := by
  interval_cases v <;> decide

/-- Decoding the saved hex string recovers each byte. -/
theorem hexPairs_charHex (d : Store) (code k : Nat) (hk : k < 24)
    (hb : charByte d code k < 256) :
    hexPairsToBytes (charHex d code) k = charByte d code k := by
  rw [hexPairsToBytes, charHex]
  have e0 : k * 2 = k * 2 + 0 := rfl
  rw [e0, getD_flatMap_const (fun j => byteToHexCodes (charByte d code j)) 2 24
      (fun i _ => rfl) k 0 hk (by omega),
    getD_flatMap_const (fun j => byteToHexCodes (charByte d code j)) 2 24
      (fun i _ => rfl) k 1 hk (by omega)]
  rw [byteToHexCodes]
  simp only [List.getD_cons_zero, List.getD_cons_succ]
  rw [hexVal_hexCharCode _ (Nat.mod_lt _ (by norm_num)),
    hexVal_hexCharCode _ (Nat.mod_lt _ (by norm_num))]
  omega

/-- Every character of a saved line is in the printable band
`[34, 90]`; in particular it is neither CR, LF nor NUL. -/
theorem asciiLine_chars (d : Store) (start i : Nat) :
    ∀ c ∈ asciiLine d start i, 34 ≤ c ∧ c ≤ 90 := by
  intro c hc
  rw [asciiLine] at hc
  simp only [List.mem_append] at hc
  rcases hc with ((((hc | hc) | hc) | hc) | hc) | hc
  · have := natDecDigits_digits _ c hc; omega
  · rw [defchrHead] at hc
    fin_cases hc <;> decide
  · have := natDecDigits_digits _ c hc; omega
  · rw [defchrMid] at hc
    fin_cases hc <;> decide
  · rw [charHex, List.mem_flatMap] at hc
    obtain ⟨j, _, hj⟩ := hc
    rw [byteToHexCodes] at hj
    have l1 : hexCharCode (charByte d (start + i) j / 16 % 16) ≤ 70 ∧
        48 ≤ hexCharCode (charByte d (start + i) j / 16 % 16) := by
      have := Nat.mod_lt (charByte d (start + i) j / 16) (show 0 < 16 by norm_num)
      rw [hexCharCode]
      split <;> omega
    have l2 : hexCharCode (charByte d (start + i) j % 16) ≤ 70 ∧
        48 ≤ hexCharCode (charByte d (start + i) j % 16) := by
      have := Nat.mod_lt (charByte d (start + i) j) (show 0 < 16 by norm_num)
      rw [hexCharCode]
      split <;> omega
    rcases List.mem_cons.mp hj with h | h
    · rw [h]; omega
    · simp only [List.mem_singleton] at h
      rw [h]; omega
  · rw [defchrTail] at hc
    fin_cases hc <;> decide

theorem asciiLine_head (d : Store) (start i : Nat) :
    ∃ c t, asciiLine d start i = c :: t ∧ isDigitCh c = true := by
  rw [asciiLine]
  obtain ⟨c, t, he⟩ : ∃ c t, natDecDigits (basLineStart + i * 10) = c :: t := by
    cases h : natDecDigits (basLineStart + i * 10) with
    | nil => exact absurd h (natDecDigits_ne_nil _)
    | cons a b => exact ⟨a, b, rfl⟩
  refine ⟨c, t ++ defchrHead ++ natDecDigits (start + i) ++ defchrMid
    ++ charHex d (start + i) ++ defchrTail, ?_, ?_⟩
  · rw [he]; simp
  · exact natDecDigits_isDigit _ c (by rw [he]; exact List.mem_cons_self _ _)

/-- The regex finds exactly the code digits and hex digits in a saved
line. -/
theorem firstDefchrMatch_asciiLine (d : Store) (start i : Nat) :
    firstDefchrMatch (asciiLine d start i)
      = some (natDecDigits (start + i), charHex d (start + i)) := by
  have hsplit : asciiLine d start i = natDecDigits (basLineStart + i * 10)
      ++ (defchrHead ++ natDecDigits (start + i) ++ defchrMid
        ++ charHex d (start + i) ++ defchrTail) := by
    rw [asciiLine]
    simp [List.append_assoc]
  rw [hsplit, firstDefchrMatch_skip_digits _ (natDecDigits_isDigit _)]
  exact firstDefchrMatch_of_matchAt _ _
    (matchDefchrAt_wellformed _ _ (natDecDigits_isDigit _) (natDecDigits_ne_nil _)
      (charHex_isHex d _) (charHex_ne_nil d _))

/-! ### Splitting the saved text back into lines -/

theorem splitLines_nil : splitLines [] = [[]] := rfl

theorem splitLines_cr_nil : splitLines [13] = [[], []] := rfl

theorem splitLines_cr_cons (r : Nat) (t : List Nat) (hr : r ≠ 10) :
    splitLines (13 :: r :: t) = [] :: splitLines (r :: t) := by
  rw [splitLines.eq_def]
  norm_num [hr]

theorem splitLines_other (c : Nat) (rest : List Nat) (h13 : c ≠ 13) (h10 : c ≠ 10) :
    splitLines (c :: rest)
      = match splitLines rest with
        | [] => [[c]]
        | l :: ls => (c :: l) :: ls := by
  rw [splitLines.eq_def]
  norm_num [h13, h10]

theorem splitLines_append_cr (l rest : List Nat)
    (hl : ∀ c ∈ l, c ≠ 13 ∧ c ≠ 10)
    (hr : ∀ c, rest.head? = some c → c ≠ 10) :
    splitLines (l ++ 13 :: rest) = l :: splitLines rest := by
  induction l with
  | nil =>
    simp only [List.nil_append]
    cases rest with
    | nil => exact splitLines_cr_nil
    | cons r t => exact splitLines_cr_cons r t (hr r rfl)
  | cons c l ih =>
    have hc := hl c (List.mem_cons_self _ _)
    rw [List.cons_append, splitLines_other c _ hc.1 hc.2,
      ih (fun a ha => hl a (List.mem_cons_of_mem _ ha))]

theorem joinCR_head (l2 : List Nat) (ls : List (List Nat)) (c : Nat) (t : List Nat)
    (h : l2 = c :: t) : (joinCR (l2 :: ls)).head? = some c := by
  cases ls with
  | nil => rw [joinCR, h]; rfl
  | cons a b =>
    rw [show joinCR (l2 :: a :: b) = l2 ++ 13 :: joinCR (a :: b) from rfl, h]
    rfl

theorem splitLines_joinCR (l : List Nat) (lines : List (List Nat))
    (hclean : ∀ p ∈ l :: lines, ∀ c ∈ p, c ≠ 13 ∧ c ≠ 10)
    (hheads : ∀ p ∈ lines, ∃ c t, p = c :: t ∧ isDigitCh c = true) :
    splitLines (joinCR (l :: lines) ++ [13]) = (l :: lines) ++ [[]] := by
  induction lines generalizing l with
  | nil =>
    rw [joinCR]
    rw [show l ++ [13] = l ++ 13 :: [] from rfl]
    rw [splitLines_append_cr l [] (hclean l (List.mem_cons_self _ _))
      (fun c hc => by cases hc)]
    rfl
  | cons l2 ls ih =>
    rw [show joinCR (l :: l2 :: ls) = l ++ 13 :: joinCR (l2 :: ls) from rfl]
    rw [List.append_assoc, List.cons_append]
    obtain ⟨c, t, hct, hcd⟩ := hheads l2 (List.mem_cons_self _ _)
    have hdig : 48 ≤ c ∧ c ≤ 57 := by
      simp only [isDigitCh, Bool.and_eq_true, decide_eq_true_eq] at hcd
      exact hcd
    rw [splitLines_append_cr l (joinCR (l2 :: ls) ++ [13])
      (hclean l (List.mem_cons_self _ _))
      (fun a ha => by
        rw [List.head?_append, joinCR_head l2 ls c t hct] at ha
        simp only [Option.or_some] at ha
        have hac : a = c := by
          rw [Option.some.injEq] at ha
          exact ha.symm
        omega)]
    rw [ih l2 (fun p hp => hclean p (List.mem_cons_of_mem _ hp))
      (fun p hp => hheads p (List.mem_cons_of_mem _ hp))]
    rfl

/-! ### The ASCII load loop on saved lines (`original` mode) -/

theorem asciiLoop_empty_line (mode : LoadMode) (d : Store) (cnt cur : Nat) :
    asciiLoop mode [[]] d cnt cur = (d, cnt) := rfl

theorem asciiLoop_cons_write_original (rest : List (List Nat)) (line : List Nat)
    (d0 : Store) (cnt cur : Nat) (ds hs : List Nat)
    (hmatch : firstDefchrMatch line = some (ds, hs))
    (hlen : hs.length = 48) (hcode : parseIntDec ds ≤ 255) :
    asciiLoop LoadMode.original (line :: rest) d0 cnt cur
      = asciiLoop LoadMode.original rest
          (writeChar d0 (parseIntDec ds) (hexPairsToBytes hs)) (cnt + 1) cur := by
  rw [asciiLoop.eq_def]
  dsimp only
  rw [hmatch]
  simp only [hlen]
  norm_num
  intro h
  omega

theorem asciiLoop_window (dd : Store) (a : Nat) (hd : ∀ i, dd i < 256) :
    ∀ (n s : Nat) (d0 : Store) (cnt cur : Nat), a + s + n ≤ 256 →
      ((asciiLoop LoadMode.original
          ((List.range' s n).map (fun i => asciiLine dd a i) ++ [[]]) d0 cnt cur).2
        = cnt + n) ∧
      (∀ j, (asciiLoop LoadMode.original
          ((List.range' s n).map (fun i => asciiLine dd a i) ++ [[]]) d0 cnt cur).1 j
        = if (a + s) * 24 ≤ j ∧ j < (a + s + n) * 24 then dd j else d0 j) := by
  intro n
  induction n with
  | zero =>
    intro s d0 cnt cur hle
    constructor
    · rfl
    · intro j
      rw [show (asciiLoop LoadMode.original
        ((List.range' s 0).map (fun i => asciiLine dd a i) ++ [[]]) d0 cnt cur)
        = (d0, cnt) from rfl]
      rw [if_neg (by omega)]
  | succ m ih =>
    intro s d0 cnt cur hle
    have hline := firstDefchrMatch_asciiLine dd a s
    have hstep : asciiLoop LoadMode.original
        ((List.range' s (m + 1)).map (fun i => asciiLine dd a i) ++ [[]]) d0 cnt cur
      = asciiLoop LoadMode.original
          ((List.range' (s + 1) m).map (fun i => asciiLine dd a i) ++ [[]])
          (writeChar d0 (a + s) (hexPairsToBytes (charHex dd (a + s)))) (cnt + 1) cur := by
      rw [List.range'_succ, List.map_cons, List.cons_append]
      rw [asciiLoop_cons_write_original _ _ _ _ _ _ _ hline (charHex_length dd _)
        (by rw [parseIntDec_natDecDigits]; omega)]
      rw [parseIntDec_natDecDigits]
    rw [hstep]
    obtain ⟨ihc, ihs⟩ := ih (s + 1)
      (writeChar d0 (a + s) (hexPairsToBytes (charHex dd (a + s)))) (cnt + 1) cur
      (by omega)
    constructor
    · rw [ihc]; omega
    · intro j
      rw [ihs j]
      rw [writeChar]
      have hmod : (a + s) % 256 = a + s := Nat.mod_eq_of_lt (by omega)
      rw [hmod]
      by_cases h1 : (a + (s + 1)) * 24 ≤ j ∧ j < (a + (s + 1) + m) * 24
      · rw [if_pos h1, if_pos (by omega)]
      · rw [if_neg h1]
        by_cases h2 : (a + s) * 24 ≤ j ∧ j < (a + s) * 24 + 24
        · rw [if_pos h2, if_pos (by omega)]
          have hk : j - (a + s) * 24 < 24 := by omega
          rw [hexPairs_charHex dd (a + s) _ hk (by
            unfold charByte
            rw [hmod]
            exact hd _)]
          unfold charByte
          rw [hmod]
          congr 1
          omega
        · rw [if_neg h2, if_neg (by omega)]

theorem mem_joinCR (L : List (List Nat)) (c : Nat) (hc : c ∈ joinCR L) :
    (∃ l ∈ L, c ∈ l) ∨ c = 13 := by
  induction L with
  | nil => cases hc
  | cons l ls ih =>
    cases ls with
    | nil =>
      rw [joinCR] at hc
      exact Or.inl ⟨l, List.mem_cons_self _ _, hc⟩
    | cons l2 ls2 =>
      rw [show joinCR (l :: l2 :: ls2) = l ++ 13 :: joinCR (l2 :: ls2) from rfl] at hc
      rcases List.mem_append.mp hc with h | h
      · exact Or.inl ⟨l, List.mem_cons_self _ _, h⟩
      · rcases List.mem_cons.mp h with h | h
        · exact Or.inr h
        · rcases ih h with ⟨p, hp, hcp⟩ | h
          · exact Or.inl ⟨p, List.mem_cons_of_mem _ hp, hcp⟩
          · exact Or.inr h

/-- The ASCII half of the program round-trip. -/
theorem ascii_round_trip_aux (d d0 : Store) (a b s0 : Nat) (hab : a ≤ b) (hb : b ≤ 255)
    (hd : ∀ i, d i < 256) :
    ∀ content, saveAscii d a b = some content →
      (basLoad content d0 s0 LoadMode.original).2 = b + 1 - a ∧
      ∀ c j, a ≤ c → c ≤ b → j < 24 →
        charByte (basLoad content d0 s0 LoadMode.original).1 c j = charByte d c j := by
  intro content hsave
  rw [saveAscii, if_neg (by omega), Option.some.injEq] at hsave
  set count := b + 1 - a with hcount
  obtain ⟨k, hk⟩ : ∃ k, count = k + 1 := ⟨count - 1, by omega⟩
  have hlines : (List.range count).map (fun i => asciiLine d a i)
      = asciiLine d a 0 :: (List.range' 1 k).map (fun i => asciiLine d a i) := by
    rw [List.range_eq_range', hk, List.range'_succ, List.map_cons]
  have hmemchars : ∀ c ∈ content, 13 ≤ c := by
    intro c hc
    rw [← hsave] at hc
    rcases List.mem_append.mp hc with h | h
    · rcases mem_joinCR _ c h with ⟨p, hp, hcp⟩ | h
      · rw [List.mem_map] at hp
        obtain ⟨i, _, rfl⟩ := hp
        have := asciiLine_chars d a i c hcp
        omega
      · omega
    · simp only [List.mem_singleton] at h
      omega
  have hnz : content.contains 0 = false := by
    have h0 : (0 : Nat) ∉ content := fun h => by have := hmemchars 0 h; omega
    simp [List.contains, h0]
  have hsplit : splitLines content
      = ((List.range count).map (fun i => asciiLine d a i)) ++ [[]] := by
    rw [← hsave, hlines]
    apply splitLines_joinCR
    · intro p hp c hcp
      rcases List.mem_cons.mp hp with h | h
      · subst h
        have := asciiLine_chars d a 0 c hcp
        omega
      · rw [List.mem_map] at h
        obtain ⟨i, _, rfl⟩ := h
        have := asciiLine_chars d a i c hcp
        omega
    · intro p hp
      rw [List.mem_map] at hp
      obtain ⟨i, _, rfl⟩ := hp
      exact asciiLine_head d a i
  have hload : basLoad content d0 s0 LoadMode.original
      = asciiLoop LoadMode.original
          (((List.range' 0 count).map (fun i => asciiLine d a i)) ++ [[]]) d0 0 s0 := by
    rw [basLoad, hnz]
    simp only [Bool.false_eq_true, if_false]
    rw [loadAsciiText, hsplit, List.range_eq_range']
  obtain ⟨hc2, hs2⟩ := asciiLoop_window d a hd count 0 d0 0 s0 (by omega)
  constructor
  · rw [hload, hc2]
    omega
  · intro c j hc hcb hj
    rw [hload]
    unfold charByte
    rw [Nat.mod_eq_of_lt (show c < 256 by omega)]
    rw [hs2 (c * 24 + j)]
    rw [if_pos (by omega)]

/-! ### Binary program round-trip -/

theorem getD_append_lt (l1 l2 : List Nat) (n : Nat) (h : n < l1.length) :
    (l1 ++ l2).getD n 0 = l1.getD n 0 := by
  rw [List.getD_eq_getElem?_getD, List.getElem?_append_left h, ← List.getD_eq_getElem?_getD]

theorem getD_append_ge (l1 l2 : List Nat) (n : Nat) (h : l1.length ≤ n) :
    (l1 ++ l2).getD n 0 = l2.getD (n - l1.length) 0 := by
  rw [List.getD_eq_getElem?_getD, List.getElem?_append_right h, ← List.getD_eq_getElem?_getD]

theorem parseDefchr_generated (data : List Nat) (base code : Nat) (hex : List Nat)
    (hhexlen : hex.length = 48) (hhex : hex.all isHexDigitCh = true) (hcode : code ≤ 255)
    (h7 : data.getD (base + 7) 0 = 0x28)
    (h8 : data.getD (base + 8) 0 = 0x12)
    (h9 : data.getD (base + 9) 0 = code % 256)
    (h10 : data.getD (base + 10) 0 = code / 256 % 256)
    (h11 : data.getD (base + 11) 0 = 0x29)
    (h12 : data.getD (base + 12) 0 = 0xF4)
    (h13 : data.getD (base + 13) 0 = 0xFF)
    (h14 : data.getD (base + 14) 0 = 0xBF)
    (h15 : data.getD (base + 15) 0 = 0x28)
    (h16 : data.getD (base + 16) 0 = 0x22)
    (hhx : ∀ t, t < 48 → data.getD (base + 17 + t) 0 = hex.getD t 0)
    (h65 : data.getD (base + 65) 0 = 0x22) :
    parseDefchrBinaryLine data (base + 4) (base + 67) = some (code, hex) := by
  have hqr : code / 256 % 256 = 0 := by omega
  have hm : code % 256 = code := Nat.mod_eq_of_lt (by omega)
  simp only [parseDefchrBinaryLine]
  rw [show base + 4 + 3 = base + 7 from by omega]
  rw [if_neg (by push_neg; exact ⟨by omega, h7⟩)]
  rw [show base + 7 + 1 = base + 8 from by omega]
  rw [h8, if_pos rfl, if_neg (by omega)]
  rw [show base + 8 + 1 = base + 9 from by omega,
    show base + 8 + 2 = base + 10 from by omega,
    h9, h10, hqr, hm]
  rw [show code ||| 0 <<< 8 = code from by simp]
  dsimp only
  rw [show base + 8 + 3 = base + 11 from by omega]
  rw [if_neg (by push_neg; exact ⟨by omega, h11⟩)]
  rw [show base + 11 + 1 = base + 12 from by omega]
  rw [if_neg (by push_neg; exact ⟨by omega, h12⟩)]
  rw [show base + 12 + 1 = base + 13 from by omega,
    show base + 13 + 1 = base + 14 from by omega]
  rw [if_neg (by push_neg; exact ⟨by omega, h13, h14⟩)]
  rw [show base + 13 + 2 = base + 15 from by omega]
  rw [if_neg (by push_neg; exact ⟨by omega, h15⟩)]
  rw [show base + 15 + 1 = base + 16 from by omega]
  rw [if_neg (by push_neg; exact ⟨by omega, h16⟩)]
  rw [show base + 16 + 1 = base + 17 from by omega]
  rw [if_neg (by omega)]
  have hmap : List.map (fun i => data.getD (base + 17 + i) 0) (List.range 48) = hex := by
    apply List.ext_getElem
    · simp [hhexlen]
    · intro i h1 h2
      simp only [List.getElem_map, List.getElem_range]
      rw [hhx i (by simpa using h1)]
      rw [List.getD_eq_getElem?_getD, List.getElem?_eq_getElem (by omega)]
      rfl
  rw [show base + 17 + 48 = base + 65 from by omega]
  rw [if_neg (by push_neg; exact ⟨by omega, h65⟩)]
  rw [hmap, if_pos hhex]

theorem basBinLine_length (ln code : Nat) (hex : List Nat) :
    (basBinLine ln code hex).length = hex.length + 18 := by
  simp [basBinLine]

theorem basBinChunk_eq (d : Store) (start i : Nat) :
    basBinChunk d start i
      = [68, 0, (basLineStart + i * 10) % 256, (basLineStart + i * 10) / 256 % 256,
          0xB2, 0xFF, 0xA0, 0x28, 0x12, (start + i) % 256, (start + i) / 256 % 256,
          0x29, 0xF4, 0xFF, 0xBF, 0x28, 0x22]
        ++ charHex d (start + i) ++ [0x22, 0x29, 0] := by
  rw [basBinChunk, basBinLine_length, charHex_length]
  norm_num [basBinLine, List.append_assoc]

theorem basBinChunk_length (d : Store) (start i : Nat) :
    (basBinChunk d start i).length = 68 := by
  rw [basBinChunk_eq]
  simp [charHex_length]
theorem binary_round_trip_aux (d d0 : Store) (a b s0 : Nat) (hab : a ≤ b) (hb : b ≤ 255)
    (hd : ∀ i, d i < 256) :
    ∀ bytes, saveBinary d a b = some bytes →
      (basLoad bytes d0 s0 LoadMode.original).2 = b + 1 - a ∧
      ∀ c j, a ≤ c → c ≤ b → j < 24 →
        charByte (basLoad bytes d0 s0 LoadMode.original).1 c j = charByte d c j := by
  intro bytes hsave
  rw [saveBinary, if_neg (by omega), Option.some.injEq] at hsave
  subst hsave
  set count := b + 1 - a with hcount
  set bytes := ((List.range count).flatMap (basBinChunk d a)) ++ [0, 0] with hbytes
  have hw : ∀ i, i < count → (basBinChunk d a i).length = 68 :=
    fun i _ => basBinChunk_length d a i
  have hlen : bytes.length = count * 68 + 2 := by
    rw [hbytes, List.length_append, length_flatMap_const _ 68 count hw]
    rfl
  have hget : ∀ i k, i < count → k < 68 →
      bytes.getD (i * 68 + k) 0 = (basBinChunk d a i).getD k 0 :=
    fun i k hi hk => getD_flatMap_const_append (basBinChunk d a) 68 count hw [0, 0] i k hi hk
  have hterm : ∀ k, bytes.getD (count * 68 + k) 0 = ([0, 0] : List Nat).getD k 0 :=
    fun k => getD_flatMap_const_suffix (basBinChunk d a) 68 count hw [0, 0] k
  have hpos : ∀ i, i < count → ∀ k, k < 17 →
      bytes.getD (i * 68 + k) 0
        = ([68, 0, (basLineStart + i * 10) % 256, (basLineStart + i * 10) / 256 % 256,
            0xB2, 0xFF, 0xA0, 0x28, 0x12, (a + i) % 256, (a + i) / 256 % 256,
            0x29, 0xF4, 0xFF, 0xBF, 0x28, 0x22] : List Nat).getD k 0 := by
    intro i hi k hk
    rw [hget i k hi (by omega), basBinChunk_eq]
    rw [getD_append_lt _ _ k (by simp [charHex_length]; omega)]
    rw [getD_append_lt _ _ k (by simp; omega)]
  have hhex : ∀ i, i < count → ∀ t, t < 48 →
      bytes.getD (i * 68 + (17 + t)) 0 = (charHex d (a + i)).getD t 0 := by
    intro i hi t ht
    rw [hget i (17 + t) hi (by omega), basBinChunk_eq]
    rw [getD_append_lt _ _ (17 + t) (by simp [charHex_length]; omega)]
    rw [getD_append_ge _ _ (17 + t) (by simp)]
    congr 1
    simp
  have h65 : ∀ i, i < count → bytes.getD (i * 68 + 65) 0 = 0x22 := by
    intro i hi
    rw [hget i 65 hi (by omega), basBinChunk_eq]
    rw [getD_append_ge _ _ 65 (by simp [charHex_length])]
    simp [charHex_length]
  have hparse : ∀ s, s < count → parseDefchrBinaryLine bytes (s * 68 + 4) (s * 68 + 67)
      = some (a + s, charHex d (a + s)) := by
    intro s hs
    apply parseDefchr_generated bytes (s * 68) (a + s) (charHex d (a + s))
      (charHex_length d _)
      (by rw [List.all_eq_true]; intro c hc; exact charHex_isHex d _ c hc)
      (by omega)
    · rw [hpos s hs 7 (by omega)]; rfl
    · rw [hpos s hs 8 (by omega)]; rfl
    · rw [hpos s hs 9 (by omega)]; rfl
    · rw [hpos s hs 10 (by omega)]; rfl
    · rw [hpos s hs 11 (by omega)]; rfl
    · rw [hpos s hs 12 (by omega)]; rfl
    · rw [hpos s hs 13 (by omega)]; rfl
    · rw [hpos s hs 14 (by omega)]; rfl
    · rw [hpos s hs 15 (by omega)]; rfl
    · rw [hpos s hs 16 (by omega)]; rfl
    · intro t ht
      rw [show s * 68 + 17 + t = s * 68 + (17 + t) from by omega]
      exact hhex s hs t ht
    · exact h65 s hs
  have hloop : ∀ (n : Nat), ∀ (s : Nat) (dl : Store) (cnt cur fuel : Nat), s + n = count →
      n < fuel →
      ((loadBinaryLoop bytes LoadMode.original fuel dl cnt cur (s * 68)).2 = cnt + n) ∧
      (∀ j, (loadBinaryLoop bytes LoadMode.original fuel dl cnt cur (s * 68)).1 j
        = if (a + s) * 24 ≤ j ∧ j < (a + s + n) * 24 then d j else dl j) := by
    intro n
    induction n with
    | zero =>
      intro s dl cnt cur fuel hsn hfuel
      obtain ⟨f, rfl⟩ : ∃ f, fuel = f + 1 := ⟨fuel - 1, by omega⟩
      have hs : s = count := by omega
      subst hs
      have ht0 : bytes.getD (count * 68) 0 = 0 := by
        have := hterm 0
        simpa using this
      have ht1 : bytes.getD (count * 68 + 1) 0 = 0 := by
        have := hterm 1
        simpa using this
      rw [loadBinaryLoop.eq_def]
      dsimp only
      rw [if_pos (by rw [hlen]; omega)]
      rw [ht0, ht1]
      rw [if_pos (by decide)]
      exact ⟨rfl, fun j => by rw [if_neg (by omega)]⟩
    | succ m ih =>
      intro s dl cnt cur fuel hsn hfuel
      obtain ⟨f, rfl⟩ : ∃ f, fuel = f + 1 := ⟨fuel - 1, by omega⟩
      have hs : s < count := by omega
      have hl0 : bytes.getD (s * 68) 0 = 68 := by
        have := hpos s hs 0 (by omega)
        simpa using this
      have hl1 : bytes.getD (s * 68 + 1) 0 = 0 := by
        have := hpos s hs 1 (by omega)
        simpa using this
      have hB2 : bytes.getD (s * 68 + 4) 0 = 0xB2 := by
        have := hpos s hs 4 (by omega); simpa using this
      have hFF : bytes.getD (s * 68 + 5) 0 = 0xFF := by
        have := hpos s hs 5 (by omega); simpa using this
      have hA0 : bytes.getD (s * 68 + 6) 0 = 0xA0 := by
        have := hpos s hs 6 (by omega); simpa using this
      rw [loadBinaryLoop.eq_def]
      dsimp only
      rw [if_pos (by rw [hlen]; omega)]
      rw [hl0, hl1]
      rw [show (68 ||| 0 <<< 8 : Nat) = 68 from by decide]
      rw [if_neg (by decide)]
      rw [if_pos ⟨by omega, hB2, hFF, hA0⟩]
      rw [show s * 68 + 68 - 1 = s * 68 + 67 from by omega]
      rw [hparse s hs]
      dsimp only
      rw [if_pos (show a + s ≤ 255 by omega)]
      rw [show s * 68 + 68 = (s + 1) * 68 from by ring]
      obtain ⟨ihc, ihs⟩ := ih (s + 1)
        (writeChar dl (a + s) (hexPairsToBytes (charHex d (a + s)))) (cnt + 1) cur f
        (by omega) (by omega)
      constructor
      · rw [ihc]; omega
      · intro j
        rw [ihs j]
        rw [writeChar]
        have hmod : (a + s) % 256 = a + s := Nat.mod_eq_of_lt (by omega)
        rw [hmod]
        by_cases h1 : (a + (s + 1)) * 24 ≤ j ∧ j < (a + (s + 1) + m) * 24
        · rw [if_pos h1, if_pos (by omega)]
        · rw [if_neg h1]
          by_cases h2 : (a + s) * 24 ≤ j ∧ j < (a + s) * 24 + 24
          · rw [if_pos h2, if_pos (by omega)]
            have hk : j - (a + s) * 24 < 24 := by omega
            rw [hexPairs_charHex d (a + s) _ hk (by
              unfold charByte
              rw [hmod]
              exact hd _)]
            unfold charByte
            rw [hmod]
            congr 1
            omega
          · rw [if_neg h2, if_neg (by omega)]
  have hmem0 : (0 : Nat) ∈ bytes := by
    rw [hbytes]
    exact List.mem_append_of_mem_right _ (by simp)
  have hload : basLoad bytes d0 s0 LoadMode.original
      = loadBinaryLoop bytes LoadMode.original (bytes.length + 1) d0 0 s0 0 := by
    rw [basLoad, if_pos (by simp [List.contains, hmem0])]
    rfl
  obtain ⟨hc2, hs2⟩ := hloop count 0 d0 0 s0 (bytes.length + 1) (by omega)
    (by rw [hlen]; omega)
  rw [show (0 : Nat) * 68 = 0 from by ring] at hc2 hs2
  constructor
  · rw [hload, hc2]
    omega
  · intro c j hc hcb hj
    rw [hload]
    unfold charByte
    rw [Nat.mod_eq_of_lt (show c < 256 by omega)]
    rw [hs2 (c * 24 + j)]
    rw [if_pos (by omega)]

/-- C1: Program round-trip. For every byte store and valid code range a..b within
0..255, decoding the ASCII program text produced by saveAscii with mode 'original'
into a fresh store reproduces exactly the same 24 bytes for every code in the
range, and the same round-trip holds for the tokenized binary program produced by
saveBinary, decoded by the binary loader (basLoad auto-detects the binary form). -/
theorem program_round_trip (d d0 dB : Store) (a b s0 sB : Nat) (hab : a ≤ b) (hb : b ≤ 255)
    (hd : ∀ i, d i < 256) :
    (∀ content, saveAscii d a b = some content →
      ∀ c j, a ≤ c → c ≤ b → j < 24 →
        charByte (basLoad content d0 s0 LoadMode.original).1 c j = charByte d c j) ∧
    (∀ bytes, saveBinary d a b = some bytes →
      ∀ c j, a ≤ c → c ≤ b → j < 24 →
        charByte (basLoad bytes dB sB LoadMode.original).1 c j = charByte d c j) :=
  ⟨fun content hs c j hc hcb hj =>
     (ascii_round_trip_aux d d0 a b s0 hab hb hd content hs).2 c j hc hcb hj,
   fun bytes hs c j hc hcb hj =>
     (binary_round_trip_aux d dB a b sB hab hb hd bytes hs).2 c j hc hcb hj⟩

/-- Witness for the program round-trip at concrete inputs: saving the zero store
over the one-code range 0..0 and loading back, in both the ASCII and the binary
format, reproduces byte 0 of code 0. -/
theorem program_round_trip_witness :
    charByte (basLoad ((saveAscii zeroStore 0 0).getD []) zeroStore 0 LoadMode.original).1 0 0
      = charByte zeroStore 0 0 ∧
    charByte (basLoad ((saveBinary zeroStore 0 0).getD []) zeroStore 0 LoadMode.original).1 0 0
      = charByte zeroStore 0 0 := by
  have h := program_round_trip zeroStore zeroStore zeroStore 0 0 0 0 (by omega) (by omega)
    (fun i => by norm_num [zeroStore])
  exact ⟨h.1 _ (by rfl) 0 0 (by omega) (by omega) (by omega),
         h.2 _ (by rfl) 0 0 (by omega) (by omega) (by omega)⟩

/-! ### C7 — spec-side model of the ASCII save format

These definitions follow the specification text for the ASCII save format
word for word, to be compared with the source-derived `saveAscii`. -/

/-- Spec wording: one uppercase hexadecimal digit for a nibble
(0-9 then A-F). -/
def specHexDigit (n : Nat) : Nat := if n < 10 then 48 + n else 65 + (n - 10)

/-- Spec wording: a byte is encoded as two uppercase hex digits,
high nibble first. -/
def specByteHex (b : Nat) : List Nat := [specHexDigit (b / 16), specHexDigit (b % 16)]

/-- Spec wording: the i-th emitted line (zero-based `i`) is exactly
`<lineNumber>DEFCHR$(<decimalCode>)=HEXCHR$("<48 hex chars>")` where
`lineNumber = 60960 + i*10` and the 48 hex characters encode the code's
24 raw bytes in native plane-major order, two digits per byte. -/
def specAsciiLine (d : Store) (a i : Nat) : List Nat :=
  natDecDigits (60960 + i * 10)
    ++ [68, 69, 70, 67, 72, 82, 36, 40]
    ++ natDecDigits (a + i)
    ++ [41, 61, 72, 69, 88, 67, 72, 82, 36, 40, 34]
    ++ (List.range 24).flatMap (fun j => specByteHex (d ((a + i) * 24 + j)))
    ++ [34, 41]

/-- Spec wording: the lines are joined by a bare carriage return with a
trailing CR (and no linefeed anywhere). -/
def specAsciiSave (d : Store) (a b : Nat) : List Nat :=
  (List.range (b + 1 - a)).flatMap (fun i => specAsciiLine d a i ++ [13])

theorem flatMap_congr_mem {α β : Type} (l : List α) (f g : α → List β)
    (h : ∀ x ∈ l, f x = g x) : l.flatMap f = l.flatMap g := by
  induction l with
  | nil => rfl
  | cons x xs ih =>
    rw [List.flatMap_cons, List.flatMap_cons, h x (by simp),
      ih (fun y hy => h y (by simp [hy]))]

theorem hexCharCode_eq_spec (n : Nat) (h : n < 16) : hexCharCode n = specHexDigit n := by
  rw [hexCharCode, specHexDigit]
  by_cases h10 : n < 10
  · rw [if_pos h10, if_pos h10]
  · rw [if_neg h10, if_neg h10]
    omega

theorem byteToHexCodes_eq_spec (b : Nat) (hb : b < 256) :
    byteToHexCodes b = specByteHex b := by
  rw [byteToHexCodes, specByteHex]
  rw [Nat.mod_eq_of_lt (show b / 16 < 16 by omega)]
  rw [hexCharCode_eq_spec _ (by omega), hexCharCode_eq_spec _ (by omega)]

theorem asciiLine_eq_spec (d : Store) (a i : Nat) (hai : a + i ≤ 255)
    (hd : ∀ k, d k < 256) : asciiLine d a i = specAsciiLine d a i := by
  rw [asciiLine, specAsciiLine, basLineStart, defchrHead, defchrMid, defchrTail, charHex]
  rw [flatMap_congr_mem (List.range 24) _
    (fun j => specByteHex (d ((a + i) * 24 + j)))
    (fun j _ => by
      rw [charByte, Nat.mod_eq_of_lt (show a + i < 256 by omega)]
      exact byteToHexCodes_eq_spec _ (hd _))]

theorem joinCR_cr_flatMap : ∀ ls : List (List Nat), ls ≠ [] →
    joinCR ls ++ [13] = ls.flatMap (fun t => t ++ [13])
  | [], h => absurd rfl h
  | [l], _ => by simp [joinCR]
  | l :: l2 :: ls, _ => by
    rw [show joinCR (l :: l2 :: ls) = l ++ 13 :: joinCR (l2 :: ls) from rfl]
    rw [List.flatMap_cons, List.append_assoc]
    rw [show (13 : Nat) :: joinCR (l2 :: ls) ++ [13] = [13] ++ (joinCR (l2 :: ls) ++ [13]) from rfl]
    rw [joinCR_cr_flatMap (l2 :: ls) (by simp), List.append_assoc]

theorem specAsciiLine_ge (d : Store) (a i : Nat) :
    ∀ c ∈ specAsciiLine d a i, 34 ≤ c := by
  intro c hc
  rw [specAsciiLine] at hc
  simp only [List.mem_append] at hc
  rcases hc with ((((h | h) | h) | h) | h) | h
  · exact le_trans (by omega) (natDecDigits_digits _ c h).1
  · fin_cases h <;> omega
  · exact le_trans (by omega) (natDecDigits_digits _ c h).1
  · fin_cases h <;> omega
  · rw [List.mem_flatMap] at h
    obtain ⟨j, _, hj⟩ := h
    rw [specByteHex] at hj
    have : ∀ n, 34 ≤ specHexDigit n := by
      intro n
      rw [specHexDigit]
      by_cases h10 : n < 10 <;> simp [h10] <;> omega
    fin_cases hj <;> exact this _
  · fin_cases h <;> omega

/-- C7: Exact ASCII save format.  For every store of bytes and valid range
`a..b` within `0..255`, the output of `saveAscii` is exactly the spec-side
text: the i-th line is `<60960 + i*10>DEFCHR$(<a+i>)=HEXCHR$("<48 uppercase
hex chars>")` with two hex digits per raw byte in native plane-major order,
lines joined by a bare carriage return with a trailing CR; and no linefeed
(code 10) occurs anywhere in the output. -/
theorem saveAscii_format (d : Store) (a b : Nat) (hab : a ≤ b) (hb : b ≤ 255)
    (hd : ∀ i, d i < 256) :
    saveAscii d a b = some (specAsciiSave d a b) ∧ 10 ∉ specAsciiSave d a b := by
  constructor
  · rw [saveAscii, if_neg (by omega), Option.some.injEq]
    have hne : (List.range (b + 1 - a)).map (fun i => asciiLine d a i) ≠ [] := by
      simp
      omega
    rw [joinCR_cr_flatMap _ hne, List.flatMap_map, specAsciiSave]
    exact flatMap_congr_mem _ _ _ (fun i hi => by
      rw [asciiLine_eq_spec d a i (by rw [List.mem_range] at hi; omega) hd])
  · intro h
    rw [specAsciiSave, List.mem_flatMap] at h
    obtain ⟨i, _, hmem⟩ := h
    rw [List.mem_append] at hmem
    rcases hmem with h | h
    · exact absurd (specAsciiLine_ge d a i 10 h) (by omega)
    · simp at h

/-- Witness for the ASCII format theorem on a concrete store and range. -/
theorem saveAscii_format_witness :
    saveAscii zeroStore 0 0 = some (specAsciiSave zeroStore 0 0) ∧
    10 ∉ specAsciiSave zeroStore 0 0 :=
  saveAscii_format zeroStore 0 0 (by omega) (by omega) (fun i => by norm_num [zeroStore])

/-! ### C8 — integer literal encodings in the tokenized binary format -/

/-- A hand-built tokenized line image whose character-code literal uses the
legacy one-byte biased encoding (a raw byte `v` with `0x02 ≤ v ≤ 0x0A`):
link pointer, line number, `B2 FF A0 (` then `v` then `) F4 FF BF ( "` hex
`" ) 00`. -/
def legacyChunk (v : Nat) (hex : List Nat) : List Nat :=
  [66, 0, 32, 238, 0xB2, 0xFF, 0xA0, 0x28, v, 0x29, 0xF4, 0xFF, 0xBF, 0x28, 0x22]
    ++ (hex ++ [0x22, 0x29, 0])

/-- A hand-built tokenized line image whose character-code literal uses the
3-byte prefixed form `0x12, lo, hi`. -/
def int16Chunk (lo hi : Nat) (hex : List Nat) : List Nat :=
  [68, 0, 32, 238, 0xB2, 0xFF, 0xA0, 0x28, 0x12, lo, hi, 0x29, 0xF4, 0xFF, 0xBF, 0x28, 0x22]
    ++ (hex ++ [0x22, 0x29, 0])

theorem legacyChunk_hex (v : Nat) (hex : List Nat) (hlen : hex.length = 48) :
    ∀ i, i < 48 → (legacyChunk v hex).getD (15 + i) 0 = hex.getD i 0 := by
  intro i hi
  rw [legacyChunk, getD_append_ge _ _ (15 + i) (by norm_num)]
  have e : 15 + i
      - ([66, 0, 32, 238, 0xB2, 0xFF, 0xA0, 0x28, v, 0x29, 0xF4, 0xFF, 0xBF, 0x28, 0x22]
        : List Nat).length = i := by
    simp
  rw [e, getD_append_lt _ _ i (by omega)]

theorem int16Chunk_hex (lo hi : Nat) (hex : List Nat) (hlen : hex.length = 48) :
    ∀ i, i < 48 → (int16Chunk lo hi hex).getD (17 + i) 0 = hex.getD i 0 := by
  intro i hlt
  rw [int16Chunk, getD_append_ge _ _ (17 + i) (by norm_num)]
  have e : 17 + i
      - ([68, 0, 32, 238, 0xB2, 0xFF, 0xA0, 0x28, 0x12, lo, hi, 0x29, 0xF4, 0xFF, 0xBF, 0x28,
          0x22] : List Nat).length = i := by
    simp
  rw [e, getD_append_lt _ _ i (by omega)]

theorem parseDefchr_legacyChunk (v : Nat) (hex : List Nat)
    (hv2 : 2 ≤ v) (hvA : v ≤ 0x0A)
    (hlen : hex.length = 48) (hall : hex.all isHexDigitCh = true) :
    parseDefchrBinaryLine (legacyChunk v hex) 4 65 = some (v - 1, hex) := by
  have g7 : (legacyChunk v hex).getD 7 0 = 0x28 := rfl
  have g8 : (legacyChunk v hex).getD 8 0 = v := rfl
  have g9 : (legacyChunk v hex).getD 9 0 = 0x29 := rfl
  have g10 : (legacyChunk v hex).getD 10 0 = 0xF4 := rfl
  have g11 : (legacyChunk v hex).getD 11 0 = 0xFF := rfl
  have g12 : (legacyChunk v hex).getD 12 0 = 0xBF := rfl
  have g13 : (legacyChunk v hex).getD 13 0 = 0x28 := rfl
  have g14 : (legacyChunk v hex).getD 14 0 = 0x22 := rfl
  have g63 : (legacyChunk v hex).getD 63 0 = 0x22 := by
    rw [legacyChunk, getD_append_ge _ _ 63 (by norm_num)]
    have e : (63 : Nat)
        - ([66, 0, 32, 238, 0xB2, 0xFF, 0xA0, 0x28, v, 0x29, 0xF4, 0xFF, 0xBF, 0x28, 0x22]
          : List Nat).length = 48 := by
      simp
    rw [e, getD_append_ge _ _ 48 (by omega), hlen]
    rfl
  simp only [parseDefchrBinaryLine]
  rw [show (4 : Nat) + 3 = 7 from by omega]
  rw [if_neg (by push_neg; exact ⟨by omega, g7⟩)]
  rw [show (7 : Nat) + 1 = 8 from by omega]
  rw [g8, if_neg (by omega), if_pos (by omega)]
  dsimp only
  rw [show (8 : Nat) + 1 = 9 from by omega]
  rw [if_neg (by push_neg; exact ⟨by omega, g9⟩)]
  rw [show (9 : Nat) + 1 = 10 from by omega]
  rw [if_neg (by push_neg; exact ⟨by omega, g10⟩)]
  rw [show (10 : Nat) + 1 = 11 from by omega,
    show (11 : Nat) + 1 = 12 from by omega]
  rw [if_neg (by push_neg; exact ⟨by omega, g11, g12⟩)]
  rw [show (11 : Nat) + 2 = 13 from by omega]
  rw [if_neg (by push_neg; exact ⟨by omega, g13⟩)]
  rw [show (13 : Nat) + 1 = 14 from by omega]
  rw [if_neg (by push_neg; exact ⟨by omega, g14⟩)]
  rw [show (14 : Nat) + 1 = 15 from by omega]
  rw [if_neg (by omega)]
  have hmap : List.map (fun i => (legacyChunk v hex).getD (15 + i) 0) (List.range 48) = hex := by
    apply List.ext_getElem
    · simp [hlen]
    · intro i h1 h2
      simp only [List.getElem_map, List.getElem_range]
      rw [legacyChunk_hex v hex hlen i (by simpa using h1)]
      rw [List.getD_eq_getElem?_getD, List.getElem?_eq_getElem (by omega)]
      rfl
  rw [show (15 : Nat) + 48 = 63 from by omega]
  rw [if_neg (by push_neg; exact ⟨by omega, g63⟩)]
  rw [hmap, if_pos hall]

theorem parseDefchr_int16Chunk (lo hi : Nat) (hex : List Nat)
    (hlen : hex.length = 48) (hall : hex.all isHexDigitCh = true) :
    parseDefchrBinaryLine (int16Chunk lo hi hex) 4 67 = some (lo ||| hi <<< 8, hex) := by
  have g7 : (int16Chunk lo hi hex).getD 7 0 = 0x28 := rfl
  have g8 : (int16Chunk lo hi hex).getD 8 0 = 0x12 := rfl
  have g9 : (int16Chunk lo hi hex).getD 9 0 = lo := rfl
  have g10 : (int16Chunk lo hi hex).getD 10 0 = hi := rfl
  have g11 : (int16Chunk lo hi hex).getD 11 0 = 0x29 := rfl
  have g12 : (int16Chunk lo hi hex).getD 12 0 = 0xF4 := rfl
  have g13 : (int16Chunk lo hi hex).getD 13 0 = 0xFF := rfl
  have g14 : (int16Chunk lo hi hex).getD 14 0 = 0xBF := rfl
  have g15 : (int16Chunk lo hi hex).getD 15 0 = 0x28 := rfl
  have g16 : (int16Chunk lo hi hex).getD 16 0 = 0x22 := rfl
  have g65 : (int16Chunk lo hi hex).getD 65 0 = 0x22 := by
    rw [int16Chunk, getD_append_ge _ _ 65 (by norm_num)]
    have e : (65 : Nat)
        - ([68, 0, 32, 238, 0xB2, 0xFF, 0xA0, 0x28, 0x12, lo, hi, 0x29, 0xF4, 0xFF, 0xBF, 0x28,
            0x22] : List Nat).length = 48 := by
      simp
    rw [e, getD_append_ge _ _ 48 (by omega), hlen]
    rfl
  simp only [parseDefchrBinaryLine]
  rw [show (4 : Nat) + 3 = 7 from by omega]
  rw [if_neg (by push_neg; exact ⟨by omega, g7⟩)]
  rw [show (7 : Nat) + 1 = 8 from by omega]
  rw [g8, if_pos rfl, if_neg (by omega)]
  rw [show (8 : Nat) + 1 = 9 from by omega,
    show (8 : Nat) + 2 = 10 from by omega, g9, g10]
  dsimp only
  rw [show (8 : Nat) + 3 = 11 from by omega]
  rw [if_neg (by push_neg; exact ⟨by omega, g11⟩)]
  rw [show (11 : Nat) + 1 = 12 from by omega]
  rw [if_neg (by push_neg; exact ⟨by omega, g12⟩)]
  rw [show (12 : Nat) + 1 = 13 from by omega,
    show (13 : Nat) + 1 = 14 from by omega]
  rw [if_neg (by push_neg; exact ⟨by omega, g13, g14⟩)]
  rw [show (13 : Nat) + 2 = 15 from by omega]
  rw [if_neg (by push_neg; exact ⟨by omega, g15⟩)]
  rw [show (15 : Nat) + 1 = 16 from by omega]
  rw [if_neg (by push_neg; exact ⟨by omega, g16⟩)]
  rw [show (16 : Nat) + 1 = 17 from by omega]
  rw [if_neg (by omega)]
  have hmap : List.map (fun i => (int16Chunk lo hi hex).getD (17 + i) 0) (List.range 48)
      = hex := by
    apply List.ext_getElem
    · simp [hlen]
    · intro i h1 h2
      simp only [List.getElem_map, List.getElem_range]
      rw [int16Chunk_hex lo hi hex hlen i (by simpa using h1)]
      rw [List.getD_eq_getElem?_getD, List.getElem?_eq_getElem (by omega)]
      rfl
  rw [show (17 : Nat) + 48 = 65 from by omega]
  rw [if_neg (by push_neg; exact ⟨by omega, g65⟩)]
  rw [hmap, if_pos hall]

/-- C8: Legacy biased integer.  The binary program line parser accepts the
character-code integer literal in the legacy one-byte biased form — a raw
byte `v` with `0x02 ≤ v ≤ 0x0A` decodes to `v - 1` — as well as in the
3-byte prefixed form `0x12, lo, hi` decoding to `lo ||| hi <<< 8`; and the
binary saver always emits the 3-byte `0x12`-prefixed form (byte `0x12` at
offset 8 of every emitted line chunk, followed by the low and high code
bytes), never the one-byte form. -/
theorem legacy_biased_int (v lo hi : Nat) (hex : List Nat) (d : Store) (a b : Nat)
    (hv2 : 2 ≤ v) (hvA : v ≤ 0x0A)
    (hlen : hex.length = 48) (hall : hex.all isHexDigitCh = true)
    (hab : a ≤ b) (hb : b ≤ 255) :
    parseDefchrBinaryLine (legacyChunk v hex) 4 65 = some (v - 1, hex) ∧
    parseDefchrBinaryLine (int16Chunk lo hi hex) 4 67 = some (lo ||| hi <<< 8, hex) ∧
    ∀ bytes, saveBinary d a b = some bytes → ∀ i, i < b + 1 - a →
      bytes.getD (i * 68 + 8) 0 = 0x12 ∧
      bytes.getD (i * 68 + 9) 0 = (a + i) % 256 ∧
      bytes.getD (i * 68 + 10) 0 = (a + i) / 256 % 256 := by
  refine ⟨parseDefchr_legacyChunk v hex hv2 hvA hlen hall,
    parseDefchr_int16Chunk lo hi hex hlen hall, ?_⟩
  intro bytes hs i hi
  rw [saveBinary, if_neg (by omega), Option.some.injEq] at hs
  subst hs
  have hg : ∀ k, k < 68 →
      (((List.range (b + 1 - a)).flatMap (basBinChunk d a)) ++ [0, 0]).getD (i * 68 + k) 0
        = (basBinChunk d a i).getD k 0 :=
    fun k hk => getD_flatMap_const_append (basBinChunk d a) 68 (b + 1 - a)
      (fun t _ => basBinChunk_length d a t) [0, 0] i k hi hk
  refine ⟨?_, ?_, ?_⟩
  · rw [hg 8 (by omega), basBinChunk_eq, getD_append_lt _ _ 8 (by norm_num)]
    rfl
  · rw [hg 9 (by omega), basBinChunk_eq, getD_append_lt _ _ 9 (by norm_num)]
    rfl
  · rw [hg 10 (by omega), basBinChunk_eq, getD_append_lt _ _ 10 (by norm_num)]
    rfl

/-- Witness: a legacy byte `0x02` decodes to code 1, the 3-byte form
`0x12 0x41 0x00` decodes to code 65, and the saver's first emitted line for
the zero store carries `0x12` at chunk offset 8. -/
theorem legacy_biased_int_witness :
    parseDefchrBinaryLine (legacyChunk 2 (List.replicate 48 48)) 4 65
      = some (1, List.replicate 48 48) ∧
    parseDefchrBinaryLine (int16Chunk 65 0 (List.replicate 48 48)) 4 67
      = some (65 ||| 0 <<< 8, List.replicate 48 48) ∧
    ((saveBinary zeroStore 0 0).getD []).getD 8 0 = 0x12 := by
  have h := legacy_biased_int 2 65 0 (List.replicate 48 48) zeroStore 0 0
    (by omega) (by omega) (by simp) (by decide) (by omega) (by omega)
  refine ⟨h.1, h.2.1, ?_⟩
  have h3 := h.2.2 ((saveBinary zeroStore 0 0).getD []) (by rfl) 0 (by omega)
  simpa using h3.1

/-! ### C10 — counter advancement asymmetry in ASCII start-mode load -/

/-- A line matching the DEFCHR pattern whose hex string has length 4
instead of 48: `10DEFCHR$(5)=HEXCHR$("0000")`. -/
def lineMalformedHex : List Nat :=
  [49, 48] ++ defchrHead ++ [53] ++ defchrMid ++ [48, 48, 48, 48] ++ defchrTail

/-- A well-formed line with a 48-character hex string of zeros:
`20DEFCHR$(6)=HEXCHR$("00...0")`. -/
def lineValidHex : List Nat :=
  [50, 48] ++ defchrHead ++ [54] ++ defchrMid ++ List.replicate 48 48 ++ defchrTail

/-- C10: Counter advancement asymmetry in the ASCII loader's start mode.
A matched line whose hex string length differs from 48 is skipped without
advancing the running target counter; a matched line whose resolved target
code exceeds 255 is skipped with the counter still advancing; consequently
a malformed-hex line followed by a valid line makes the valid line land on
the malformed line's own target slot (one code earlier, no gap), with a
written-character count of 1. -/
theorem ascii_start_counter_asymmetry :
    (∀ rest d count cur, asciiLoop LoadMode.start (lineMalformedHex :: rest) d count cur
        = asciiLoop LoadMode.start rest d count cur) ∧
    (∀ rest d count cur, 255 < cur →
        asciiLoop LoadMode.start (lineValidHex :: rest) d count cur
        = asciiLoop LoadMode.start rest d count (cur + 1)) ∧
    (∀ d s, s ≤ 255 →
        loadAsciiText (lineMalformedHex ++ 13 :: lineValidHex) d s LoadMode.start
        = (writeChar d s (hexPairsToBytes (List.replicate 48 48)), 1)) := by
  have hm : firstDefchrMatch lineMalformedHex = some ([53], [48, 48, 48, 48]) := by decide
  have hv : firstDefchrMatch lineValidHex = some ([54], List.replicate 48 48) := by decide
  have hskip : ∀ rest d count cur,
      asciiLoop LoadMode.start (lineMalformedHex :: rest) d count cur
        = asciiLoop LoadMode.start rest d count cur := by
    intro rest d count cur
    rw [asciiLoop.eq_def]
    dsimp only
    rw [hm]
    norm_num
  have hadv : ∀ rest d count cur, 255 < cur →
      asciiLoop LoadMode.start (lineValidHex :: rest) d count cur
        = asciiLoop LoadMode.start rest d count (cur + 1) := by
    intro rest d count cur hcur
    rw [asciiLoop.eq_def]
    dsimp only
    rw [hv]
    norm_num
    intro h
    omega
  refine ⟨hskip, hadv, ?_⟩
  intro d s hs
  rw [loadAsciiText]
  rw [splitLines_append_cr lineMalformedHex lineValidHex (by decide)
    (by intro c hc; rw [show lineValidHex.head? = some 50 from rfl, Option.some.injEq] at hc
        omega)]
  rw [show splitLines lineValidHex = [lineValidHex] from by decide]
  rw [hskip]
  rw [asciiLoop.eq_def]
  dsimp only
  rw [hv]
  norm_num
  rw [if_neg (by omega)]
  by_cases h255 : 255 < s + 1
  · rw [if_pos h255]
  · rw [if_neg h255]
    rw [asciiLoop.eq_def]

/-- Witness for the counter asymmetry at concrete arguments. -/
theorem ascii_start_counter_asymmetry_witness :
    asciiLoop LoadMode.start [lineMalformedHex] zeroStore 0 0
      = asciiLoop LoadMode.start [] zeroStore 0 0 ∧
    asciiLoop LoadMode.start [lineValidHex] zeroStore 0 300
      = asciiLoop LoadMode.start [] zeroStore 0 (300 + 1) ∧
    loadAsciiText (lineMalformedHex ++ 13 :: lineValidHex) zeroStore 5 LoadMode.start
      = (writeChar zeroStore 5 (hexPairsToBytes (List.replicate 48 48)), 1) := by
  obtain ⟨h1, h2, h3⟩ := ascii_start_counter_asymmetry
  exact ⟨h1 [] zeroStore 0 0, h2 [] zeroStore 0 300 (by omega), h3 zeroStore 5 (by omega)⟩
